import Mathlib

/-!
# OpenCC `TextDict`: a shallow embedding and its properties

This development embeds `src/TextDict.cpp` (the text dictionary of Open Chinese
Convert) in Lean and proves properties of the embedded code.

Conventions of the embedding

* A byte is a natural number; a `std::string` is the list of its bytes; a C string
  (`const char*`) is the list of the bytes before its terminating NUL, so that reading
  at the end of the list reads the byte `0`.
* The lexicon of a store is a value.  `LoadFromDict` makes two stores hold one vector;
  the effect of a change through the other store is made explicit by `TextDict.sharing`.
* A function that can throw returns `Except Error _`.  A member function that changes
  the dictionary returns the new dictionary (together with its outcome when it can
  throw after having changed the dictionary).
* `UTF8Util` and `DictEntry` are declared in headers that are not part of the sources
  at hand; they are modelled from the specification and marked as such.
* `std::sort` is taken by its contract (`StdSort`): the result is a permutation of the
  input that is ordered by the comparison; nothing is assumed on the relative order of
  entries with equal keys.  `std::lower_bound` is taken by its contract on a sorted
  range: the first position whose element is not less than the probe.
-/

namespace Opencc

/-! ## Errors -/

/-- The failures of the dictionary code: `runtime_error("invalid format")` of
`ParseKeyValues` (the malformed-entry error) and the encoding failure of the `UTF8Util`
helpers. -/
inductive Error where
  | MalformedEntry
  | EncodingError
  deriving DecidableEq, Repr

instance {α : Type} [DecidableEq α] : DecidableEq (Except Error α)
  | .ok a, .ok b => if h : a = b then isTrue (by rw [h]) else isFalse (by simpa using h)
  | .error a, .error b => if h : a = b then isTrue (by rw [h]) else isFalse (by simpa using h)
  | .ok _, .error _ => isFalse (by simp)
  | .error _, .ok _ => isFalse (by simp)

/-! ## `UTF8Util` (modelled from the specification) -/

namespace UTF8Util

/-- Modelled from the spec: `UTF8Util::IsLineEndingOrFileEnding` (header `UTF8Util.hpp` is
missing): true for newline, carriage return, or the end-of-input marker (NUL). -/
def IsLineEndingOrFileEnding (ch : Nat) : Bool :=
  ch == 0 || ch == 10 || ch == 13

/-- Modelled from the spec: `UTF8Util::NextCharLength` (header `UTF8Util.hpp` is missing):
the byte length of the character that starts with the leading byte `ch`, read off the
leading-byte pattern (`0xxxxxxx`, `110xxxxx`, `1110xxxx`, `11110xxx`); a byte that is no
leading byte is an encoding error and is never taken for a one-byte character. -/
def NextCharLength (ch : Nat) : Except Error Nat :=
  if ch < 0x80 then .ok 1
  else if 0xC0 ≤ ch ∧ ch < 0xE0 then .ok 2
  else if 0xE0 ≤ ch ∧ ch < 0xF0 then .ok 3
  else if 0xF0 ≤ ch ∧ ch < 0xF8 then .ok 4
  else .error .EncodingError

/-- Modelled from the spec: `UTF8Util::NextChar` (header `UTF8Util.hpp` is missing):
advances the pointer `str` past exactly one full character.  The pointer is the list of
bytes from the pointed position on; a character that is cut off by the end of the
string is an encoding error. -/
def NextChar (str : List Nat) : Except Error (List Nat) :=
  match NextCharLength (str.headD 0) with
  | .error e => .error e
  | .ok n => if n ≤ str.length then .ok (str.drop n) else .error .EncodingError

/-- Scan of `FindNextInline`: `skip` is the number of bytes of the current character that
are still to be stepped over; the result is the number of bytes before the position
found. -/
def FindNextInline.go (ch : Nat) : List Nat → Nat → Except Error Nat
  | [], 0 => .ok 0
  | [], _ + 1 => .error .EncodingError
  | _ :: rest, skip + 1 =>
    match FindNextInline.go ch rest skip with
    | .ok k => .ok (k + 1)
    | .error e => .error e
  | b :: rest, 0 =>
    if IsLineEndingOrFileEnding b || b == ch then .ok 0
    else
      match NextCharLength b with
      | .error e => .error e
      | .ok n =>
        match FindNextInline.go ch rest (n - 1) with
        | .ok k => .ok (k + 1)
        | .error e => .error e

/-- Modelled from the spec: `UTF8Util::FindNextInline` (header `UTF8Util.hpp` is missing):
scans forward without ever stopping inside a multi-byte character and returns the
position (as the offset `pbuff - buff`) of the first standalone occurrence of the
delimiter `ch`, or of a line/file terminator if none is found before it. -/
def FindNextInline (str : List Nat) (ch : Nat) : Except Error Nat :=
  FindNextInline.go ch str 0

/-- Modelled from the spec: `UTF8Util::FromSubstr` (header `UTF8Util.hpp` is missing):
the string made of the `length` bytes that start at `str`. -/
def FromSubstr (str : List Nat) (length : Nat) : List Nat :=
  str.take length

/-- Whether `ch` is the leading byte of a character of `n` bytes. -/
def isLeadOf (ch n : Nat) : Bool :=
  match NextCharLength ch with
  | .ok m => m == n
  | .error _ => false

/-- Modelled from the spec: `UTF8Util::PrevCharLength` (header `UTF8Util.hpp` is missing):
given the bytes stored before the pointer, nearest first, the byte length of the
character that ends at the pointer, found from the leading-byte patterns: the byte `i`
positions back must be the leading byte of a character of `i` bytes.  No such byte
within the maximal width is an encoding error (a position that `before` does not
describe holds no leading byte). -/
def PrevCharLength (before : List Nat) : Except Error Nat :=
  if isLeadOf (before.getD 0 0x80) 1 then .ok 1
  else if isLeadOf (before.getD 1 0x80) 2 then .ok 2
  else if isLeadOf (before.getD 2 0x80) 3 then .ok 3
  else if isLeadOf (before.getD 3 0x80) 4 then .ok 4
  else .error .EncodingError

/-- Walk of `Truncate`: the number of bytes of the longest run of whole characters of
`str` that fits in `budget` bytes; `skip` is the number of bytes of the current
character that are still to be stepped over (they are already paid for). -/
def Truncate.go : List Nat → Nat → Nat → Except Error Nat
  | [], 0, _ => .ok 0
  | [], _ + 1, _ => .error .EncodingError
  | _ :: rest, skip + 1, budget =>
    match Truncate.go rest skip budget with
    | .ok k => .ok (k + 1)
    | .error e => .error e
  | b :: rest, 0, budget =>
    match NextCharLength b with
    | .error e => .error e
    | .ok n =>
      if n ≤ budget then
        match Truncate.go rest (n - 1) (budget - n) with
        | .ok k => .ok (k + 1)
        | .error e => .error e
      else .ok 0

/-- Modelled from the spec: `UTF8Util::Truncate` (header `UTF8Util.hpp` is missing):
copies at most `maxLength` bytes of `str` without cutting a character in half: the
length of the result is the largest value `≤ maxLength` that lands on a character
boundary of `str`. -/
def Truncate (str : List Nat) (maxLength : Nat) : Except Error (List Nat) :=
  match Truncate.go str 0 maxLength with
  | .ok k => .ok (str.take k)
  | .error e => .error e

/-- Modelled from the spec: `UTF8Util::SkipUtf8Bom` (header `UTF8Util.hpp` is missing):
consumes a UTF-8 byte-order mark (`EF BB BF`) at the start of the stream if present,
and does nothing otherwise.  The stream is the list of the bytes still to be read. -/
def SkipUtf8Bom (fp : List Nat) : List Nat :=
  if fp.take 3 = [0xEF, 0xBB, 0xBF] then fp.drop 3 else fp

/-- Whether `ch` is a continuation byte (`10xxxxxx`). -/
def isContinuation (ch : Nat) : Bool :=
  decide (0x80 ≤ ch ∧ ch < 0xC0)

/-- Check of `ValidUTF8`: `expected` is the number of continuation bytes that the current
character still needs. -/
def ValidUTF8.scan : Nat → List Nat → Bool
  | 0, [] => true
  | _ + 1, [] => false
  | expected + 1, b :: rest => isContinuation b && ValidUTF8.scan expected rest
  | 0, b :: rest =>
    match NextCharLength b with
    | .ok n => ValidUTF8.scan (n - 1) rest
    | .error _ => false

/-- The string is a sequence of whole characters, each a leading byte followed by as
many continuation bytes as the leading byte announces.  Every valid UTF-8 text has
this form. -/
def ValidUTF8 (str : List Nat) : Prop :=
  ValidUTF8.scan 0 str = true

instance (str : List Nat) : Decidable (ValidUTF8 str) := by
  unfold ValidUTF8; infer_instance

end UTF8Util

/-! ## `DictEntry` (modelled from the specification) -/

/-- Modelled from the spec: `DictEntry` (its header is missing): a key with its ordered
list of replacement candidates. -/
structure DictEntry where
  key : List Nat
  values : List (List Nat)
  deriving DecidableEq, Repr

/-- Byte-wise lexicographic comparison of two strings (`std::string::operator<`): a
proper initial segment is smaller. -/
def strLt : List Nat → List Nat → Bool
  | [], [] => false
  | [], _ :: _ => true
  | _ :: _, [] => false
  | a :: as, b :: bs => decide (a < b) || (a == b && strLt as bs)

/-- Modelled from the spec: `DictEntry::PtrCmp` (its header is missing): entries compare
by `key` alone, by byte-wise lexicographic comparison. -/
def DictEntry.PtrCmp (a b : DictEntry) : Bool :=
  strLt a.key b.key

/-- A sequence of entries is in ascending key order: no entry is followed, anywhere
later, by an entry with a smaller key. -/
def Ascending (l : List DictEntry) : Prop :=
  l.Pairwise (fun a b => DictEntry.PtrCmp b a = false)

instance (l : List DictEntry) : Decidable (Ascending l) := by
  unfold Ascending; infer_instance

/-- The contract of `std::sort(first, last, DictEntry::PtrCmp)`: the result is a
rearrangement of the range that is ordered by the comparison.  The order of entries
with equal keys is left open. -/
structure StdSort where
  sort : List DictEntry → List DictEntry
  perm : ∀ l, (sort l).Perm l
  ascending : ∀ l, Ascending (sort l)

/-- The contract of `std::lower_bound(first, last, probe, DictEntry::PtrCmp)` on a range
ordered by the comparison: the range from the first entry that is not less than the
probe on (`[]` stands for `end()`). -/
def lower_bound (lexicon : List DictEntry) (probe : DictEntry) : List DictEntry :=
  lexicon.dropWhile (fun e => DictEntry.PtrCmp e probe)

/-! ## `TextDict` -/

/-- The data members of `TextDict`: the lexicon, the maximal key length and the flag of
the lazy sort. -/
structure TextDict where
  lexicon : List DictEntry
  maxLength : Nat
  sorted : Bool
  deriving DecidableEq, Repr

namespace TextDict

/-- The constructor `TextDict::TextDict()` creates an empty lexicon and sets `sorted`.  It
does not assign `maxLength`; the value the member has after construction comes from the
class declaration, which is not part of the sources, and is the parameter `maxLength₀`. -/
def new (maxLength₀ : Nat) : TextDict :=
  { lexicon := [], maxLength := maxLength₀, sorted := true }

/-- The member `TextDict::AddKeyValue(shared_ptr<DictEntry>)`. -/
def AddKeyValue (d : TextDict) (entry : DictEntry) : TextDict :=
  { lexicon := d.lexicon ++ [entry]
    maxLength := max entry.key.length d.maxLength
    sorted := false }

/-- The member `TextDict::SortLexicon`. -/
def SortLexicon (S : StdSort) (d : TextDict) : TextDict :=
  if !d.sorted then { d with lexicon := S.sort d.lexicon, sorted := true } else d

/-- The member `TextDict::KeyMaxLength`. -/
def KeyMaxLength (d : TextDict) : Nat :=
  d.maxLength

/-- The member `TextDict::GetLexicon`: the lexicon returned and the dictionary after the
call. -/
def GetLexicon (S : StdSort) (d : TextDict) : List DictEntry × TextDict :=
  ((SortLexicon S d).lexicon, SortLexicon S d)

/-- The member `TextDict::LoadFromDict(Dict& dictionary)` for a `dictionary` that is itself
a `TextDict`: `dictionary.GetLexicon()` sorts the dictionary and hands over its vector,
`dictionary.KeyMaxLength()` its maximum key length, and `sorted` is set.  The former
members of this store are overwritten.  The result is this store and the dictionary
after the call.  Since `lexicon` is a `shared_ptr`, both objects then hold the SAME
vector; see `sharing`. -/
def LoadFromDict (S : StdSort) (_d dictionary : TextDict) : TextDict × TextDict :=
  ({ lexicon := (GetLexicon S dictionary).1
     maxLength := (GetLexicon S dictionary).2.KeyMaxLength
     sorted := true },
   (GetLexicon S dictionary).2)

/-- The store `d` as it is after the vector that it shares with the store `other`
(through `LoadFromDict`) was changed by a member function of `other`: its vector is the
one of `other`, its members `maxLength` and `sorted` are untouched. -/
def sharing (d other : TextDict) : TextDict :=
  { d with lexicon := other.lexicon }

/-- The test `found != lexicon->end() && (*found)->key == entry->key` on the result of
`std::lower_bound` for the probe key `key`. -/
def lookup (lexicon : List DictEntry) (key : List Nat) : Option DictEntry :=
  match lower_bound lexicon { key := key, values := [] } with
  | [] => none
  | found :: _ => if found.key = key then some found else none

/-- The member `std::string::resize(n)`: the first `n` bytes, padded with NUL when the
string is shorter. -/
def resize (s : List Nat) (n : Nat) : List Nat :=
  s.take n ++ List.replicate (n - s.length) 0

/-- The loop of `TextDict::MatchPrefix`,
`for (long len = entry->key.length(); len > 0; len -= UTF8Util::PrevCharLength(keyPtr))`.

`keyPtr` is `entry->key.c_str()`, the address of the FIRST byte of the candidate key, so
the bytes that `PrevCharLength` inspects are the ones stored in memory before the buffer
of the candidate.  The program does not determine them; they are the parameter `pre`
(nearest byte first).  `key` is the current `entry->key`; `len` is a natural number, the
subtraction stops at `0`, where the loop ends as it does for a negative `long`.  The
first argument bounds the number of rounds; `len` rounds are enough since every round
takes at least one byte off `len`. -/
def MatchPrefix.loop (pre : List Nat) (lexicon : List DictEntry) :
    Nat → List Nat → Nat → Except Error (Option DictEntry)
  | 0, _, _ => .ok none
  | fuel + 1, key, len =>
    if len > 0 then
      let key := resize key len
      match lookup lexicon key with
      | some found => .ok (some found)
      | none =>
        match UTF8Util.PrevCharLength pre with
        | .error e => .error e
        | .ok n => MatchPrefix.loop pre lexicon fuel key (len - n)
    else .ok none

/-- The member `TextDict::MatchPrefix(const char* word)`: the outcome and the dictionary
after the call.  `pre` are the bytes stored before the buffer of the candidate key (see
`MatchPrefix.loop`). -/
def MatchPrefix (S : StdSort) (pre : List Nat) (d : TextDict) (word : List Nat) :
    Except Error (Option DictEntry) × TextDict :=
  let d := SortLexicon S d
  match UTF8Util.Truncate word d.maxLength with
  | .error e => (.error e, d)
  | .ok key => (MatchPrefix.loop pre d.lexicon key.length key key.length, d)

/-- The loop of `TextDict::MatchAllPrefixes`; it is the loop of `MatchPrefix` except that a
hit is appended to `matchedLengths` and the search goes on. -/
def MatchAllPrefixes.loop (pre : List Nat) (lexicon : List DictEntry) :
    Nat → List Nat → Nat → List DictEntry → Except Error (List DictEntry)
  | 0, _, _, matchedLengths => .ok matchedLengths
  | fuel + 1, key, len, matchedLengths =>
    if len > 0 then
      let key := resize key len
      let matchedLengths :=
        match lookup lexicon key with
        | some found => matchedLengths ++ [found]
        | none => matchedLengths
      match UTF8Util.PrevCharLength pre with
      | .error e => .error e
      | .ok n => MatchAllPrefixes.loop pre lexicon fuel key (len - n) matchedLengths
    else .ok matchedLengths

/-- The member `TextDict::MatchAllPrefixes(const char* word)`: the outcome and the
dictionary after the call. -/
def MatchAllPrefixes (S : StdSort) (pre : List Nat) (d : TextDict) (word : List Nat) :
    Except Error (List DictEntry) × TextDict :=
  let d := SortLexicon S d
  match UTF8Util.Truncate word d.maxLength with
  | .error e => (.error e, d)
  | .ok key => (MatchAllPrefixes.loop pre d.lexicon key.length key key.length [], d)

end TextDict

/-! ## The text codec -/

/-- The loop `while (!UTF8Util::IsLineEndingOrFileEnding(*pbuff))` of `ParseKeyValues`.
The first argument bounds the number of rounds; every round moves `pbuff` forward by at
least one byte, so one more than the number of bytes from `pbuff` on is never reached. -/
def ParseKeyValues.loop : Nat → List Nat → List (List Nat) → Except Error (List (List Nat))
  | 0, _, values => .ok values
  | fuel + 1, pbuff, values =>
    if UTF8Util.IsLineEndingOrFileEnding (pbuff.headD 0) then .ok values
    else
      match UTF8Util.NextChar pbuff with
      | .error e => .error e
      | .ok buff =>
        match UTF8Util.FindNextInline buff 32 with
        | .error e => .error e
        | .ok length =>
          ParseKeyValues.loop fuel (buff.drop length)
            (values ++ [UTF8Util.FromSubstr buff length])

/-- The function `ParseKeyValues(const char* buff)`. -/
def ParseKeyValues (buff : List Nat) : Except Error DictEntry :=
  match UTF8Util.FindNextInline buff 9 with
  | .error e => .error e
  | .ok length =>
    let pbuff := buff.drop length
    if UTF8Util.IsLineEndingOrFileEnding (pbuff.headD 0) then .error .MalformedEntry
    else
      match ParseKeyValues.loop (pbuff.length + 1) pbuff [] with
      | .error e => .error e
      | .ok values => .ok { key := UTF8Util.FromSubstr buff length, values := values }

/-- The size of the line buffer of `LoadFromFile`. -/
def ENTRY_BUFF_SIZE : Nat := 128

/-- The bytes that `fgets` stores when it may still store `n` bytes: it stops after a
newline, at the end of the stream, or when `n` bytes are stored.  The result is the
bytes stored and the rest of the stream. -/
def fgets.read : Nat → List Nat → List Nat × List Nat
  | 0, fp => ([], fp)
  | _ + 1, [] => ([], [])
  | n + 1, b :: rest =>
    if b = 10 then ([b], rest)
    else ((b :: (fgets.read n rest).1), (fgets.read n rest).2)

/-- The library function `fgets(buff, size, fp)`: `none` (a null pointer) at the end of
the stream, otherwise the string stored in `buff` (at most `size - 1` bytes) and the rest
of the stream. -/
def fgets (size : Nat) (fp : List Nat) : Option (List Nat × List Nat) :=
  if fp = [] then none else some (fgets.read (size - 1) fp)

namespace TextDict

/-- The loop `while (fgets(buff, ENTRY_BUFF_SIZE, fp))` of `LoadFromFile`: the outcome
and the dictionary at the point where the loop ends or throws.  The first argument
bounds the number of rounds; every round reads at least one byte, so the number of bytes
of the stream is enough. -/
def LoadFromFile.loop : Nat → List Nat → TextDict → Except Error Unit × TextDict
  | 0, _, d => (.ok (), d)
  | fuel + 1, fp, d =>
    match fgets ENTRY_BUFF_SIZE fp with
    | none => (.ok (), d)
    | some (buff, fp) =>
      match ParseKeyValues buff with
      | .error e => (.error e, d)
      | .ok entry => LoadFromFile.loop fuel fp (AddKeyValue d entry)

/-- The member `TextDict::LoadFromFile(FILE* fp)`: the outcome and the dictionary after
the call; when `ParseKeyValues` throws, the dictionary is the one at the throw. -/
def LoadFromFile (S : StdSort) (d : TextDict) (fp : List Nat) :
    Except Error Unit × TextDict :=
  let fp := UTF8Util.SkipUtf8Bom fp
  match LoadFromFile.loop fp.length fp d with
  | (.error e, d) => (.error e, d)
  | (.ok (), d) => (.ok (), SortLexicon S d)

/-- The strings that the successive calls of `fgets(buff, ENTRY_BUFF_SIZE, fp)` store in
`buff` until the end of the stream (the first argument bounds their number; the number
of bytes of the stream is enough). -/
def LoadFromFile.lines : Nat → List Nat → List (List Nat)
  | 0, _ => []
  | fuel + 1, fp =>
    match fgets ENTRY_BUFF_SIZE fp with
    | none => []
    | some (buff, fp) => buff :: LoadFromFile.lines fuel fp

/-- What `fprintf(fp, "%s", s.c_str())` writes: the bytes of `s` before its first NUL. -/
def c_str (s : List Nat) : List Nat :=
  s.takeWhile (fun b => b != 0)

/-- The inner loop of `SerializeToFile`: every value, followed by a space unless it is the
last one. -/
def SerializeToFile.values : List (List Nat) → List Nat
  | [] => []
  | [value] => c_str value
  | value :: rest => c_str value ++ [32] ++ SerializeToFile.values rest

/-- The outer loop of `SerializeToFile`: for each entry the key, a tab, the values and a
newline. -/
def SerializeToFile.entries : List DictEntry → List Nat
  | [] => []
  | entry :: rest =>
    c_str entry.key ++ [9] ++ SerializeToFile.values entry.values ++ [10]
      ++ SerializeToFile.entries rest

/-- The member `TextDict::SerializeToFile(FILE* fp)`: the bytes written and the dictionary
after the call. -/
def SerializeToFile (S : StdSort) (d : TextDict) : List Nat × TextDict :=
  (SerializeToFile.entries (SortLexicon S d).lexicon, SortLexicon S d)

end TextDict

/-! ## Notions used to state the properties -/

/-- The order "not greater by key" used to run the insertion sort. -/
def keyLe (a b : DictEntry) : Prop := DictEntry.PtrCmp b a = false

instance : DecidableRel keyLe := fun a b => by unfold keyLe; infer_instance

/-- The line that the text format has for an entry: the key, a tab, the values separated
by single spaces, a newline. -/
def DictEntry.line (e : DictEntry) : List Nat :=
  e.key ++ 9 :: ([32].intercalate e.values ++ [10])

/-- The entries that the text format can carry through `SerializeToFile` and
`LoadFromFile`: the key is valid UTF-8 without tab and without line/file terminator and
does not begin with a byte-order mark; there is at least one value; every value is
valid UTF-8 without space and without line/file terminator; the line of the entry fits
in the line buffer. -/
def DictEntry.Representable (e : DictEntry) : Prop :=
  UTF8Util.ValidUTF8 e.key ∧
  (∀ b ∈ e.key, UTF8Util.IsLineEndingOrFileEnding b = false ∧ b ≠ 9) ∧
  ¬ [0xEF, 0xBB, 0xBF] <+: e.key ∧
  e.values ≠ [] ∧
  (∀ v ∈ e.values, UTF8Util.ValidUTF8 v ∧
    ∀ b ∈ v, UTF8Util.IsLineEndingOrFileEnding b = false ∧ b ≠ 32) ∧
  e.line.length < ENTRY_BUFF_SIZE

instance (e : DictEntry) : Decidable e.Representable := by
  unfold DictEntry.Representable; infer_instance

/-- The invariant of a store that holds its vector alone (see `TextDict.Reachable`): the
flag `sorted` is set only if the lexicon is in ascending key order, and no key is longer
than `maxLength`.  A store whose vector is also held by another dictionary can lose it
(`TextDict.sharing`). -/
def TextDict.Consistent (d : TextDict) : Prop :=
  (d.sorted = true → Ascending d.lexicon) ∧ ∀ e ∈ d.lexicon, e.key.length ≤ d.maxLength

/-- The maximum byte length of the keys of a sequence of entries, `0` for no entry. -/
def maxKeyLength (l : List DictEntry) : Nat :=
  l.foldr (fun e m => max e.key.length m) 0

/-- The states of a store that are reachable from a newly constructed one (whose member
`maxLength` starts at `maxLength₀`) by `AddKeyValue`, `LoadFromFile` (whether it returns or
throws), `SortLexicon`, `GetLexicon` and the two match queries.  `LoadFromDict` is not among
the steps, and no other dictionary holds the vector of the store: a store that shares
its vector through `LoadFromDict` has further states (`TextDict.sharing`), which are not
covered here. -/
inductive TextDict.Reachable (S : StdSort) (maxLength₀ : Nat) : TextDict → Prop where
  | new : Reachable S maxLength₀ (TextDict.new maxLength₀)
  | AddKeyValue {d : TextDict} (entry : DictEntry) :
      Reachable S maxLength₀ d → Reachable S maxLength₀ (d.AddKeyValue entry)
  | LoadFromFile {d : TextDict} (fp : List Nat) :
      Reachable S maxLength₀ d → Reachable S maxLength₀ (TextDict.LoadFromFile S d fp).2
  | SortLexicon {d : TextDict} :
      Reachable S maxLength₀ d → Reachable S maxLength₀ (TextDict.SortLexicon S d)
  | GetLexicon {d : TextDict} :
      Reachable S maxLength₀ d → Reachable S maxLength₀ (TextDict.GetLexicon S d).2
  | MatchPrefix {d : TextDict} (pre word : List Nat) :
      Reachable S maxLength₀ d → Reachable S maxLength₀ (TextDict.MatchPrefix S pre d word).2
  | MatchAllPrefixes {d : TextDict} (pre word : List Nat) :
      Reachable S maxLength₀ d →
      Reachable S maxLength₀ (TextDict.MatchAllPrefixes S pre d word).2

/-- The candidate keys that the search loop of `MatchAllPrefixes` looks up, in the order
of the rounds: the loop of `MatchAllPrefixes` with the candidate `entry->key` recorded in
each round instead of the hit.  The loop of `MatchPrefix` goes through the same
candidates and stops at the first hit. -/
def TextDict.candidates.loop (pre : List Nat) :
    Nat → List Nat → Nat → List (List Nat) → Except Error (List (List Nat))
  | 0, _, _, tried => .ok tried
  | fuel + 1, key, len, tried =>
    if len > 0 then
      let key := TextDict.resize key len
      match UTF8Util.PrevCharLength pre with
      | .error e => .error e
      | .ok n => TextDict.candidates.loop pre fuel key (len - n) (tried ++ [key])
    else .ok tried

/-- The candidate keys that `MatchAllPrefixes(word)` looks up on the store `d`, from the
truncation of the text on. -/
def TextDict.candidates (pre : List Nat) (d : TextDict) (word : List Nat) :
    Except Error (List (List Nat)) :=
  match UTF8Util.Truncate word d.maxLength with
  | .error e => .error e
  | .ok key => TextDict.candidates.loop pre key.length key key.length []

/-- The candidates of the search loop when every evaluation of `PrevCharLength(keyPtr)`
gives the same step `n`. -/
def TextDict.candidatesWithStep (n : Nat) :
    Nat → List Nat → Nat → List (List Nat) → List (List Nat)
  | 0, _, _, tried => tried
  | fuel + 1, key, len, tried =>
    if len > 0 then
      TextDict.candidatesWithStep n fuel (TextDict.resize key len) (len - n)
        (tried ++ [TextDict.resize key len])
    else tried

/-- The candidates that `MatchAllPrefixes(word)` looks up on the store `d` when every
evaluation of `PrevCharLength(keyPtr)` gives the step `n`. -/
def TextDict.candidatesOfStep (n : Nat) (d : TextDict) (word : List Nat) :
    Except Error (List (List Nat)) :=
  match UTF8Util.Truncate word d.maxLength with
  | .error e => .error e
  | .ok key => .ok (TextDict.candidatesWithStep n key.length key key.length [])

/-! ## The order on keys, and sorts that meet the contract -/

theorem strLt_irrefl (a : List Nat) : strLt a a = false := by
  induction a with
  | nil => rfl
  | cons x xs ih => simp [strLt, ih]

theorem strLt_trans {a b c : List Nat} (h₁ : strLt a b = true) (h₂ : strLt b c = true) :
    strLt a c = true := by
  induction a generalizing b c with
  | nil =>
    cases b with
    | nil => simp [strLt] at h₁
    | cons y ys =>
      cases c with
      | nil => simp [strLt] at h₂
      | cons z zs => simp [strLt]
  | cons x xs ih =>
    cases b with
    | nil => simp [strLt] at h₁
    | cons y ys =>
      cases c with
      | nil => simp [strLt] at h₂
      | cons z zs =>
        simp only [strLt, Bool.or_eq_true, decide_eq_true_eq, Bool.and_eq_true, beq_iff_eq] at *
        rcases h₁ with h₁ | ⟨h₁, h₁'⟩
        · rcases h₂ with h₂ | ⟨h₂, _⟩
          · left; omega
          · left; omega
        · rcases h₂ with h₂ | ⟨h₂, h₂'⟩
          · left; omega
          · right; exact ⟨by omega, ih h₁' h₂'⟩

theorem strLt_trichotomy (a b : List Nat) :
    strLt a b = true ∨ a = b ∨ strLt b a = true := by
  induction a generalizing b with
  | nil =>
    cases b with
    | nil => simp
    | cons y ys => simp [strLt]
  | cons x xs ih =>
    cases b with
    | nil => simp [strLt]
    | cons y ys =>
      simp only [strLt, Bool.or_eq_true, decide_eq_true_eq, Bool.and_eq_true, beq_iff_eq,
        List.cons.injEq]
      rcases Nat.lt_trichotomy x y with h | h | h
      · left; left; exact h
      · rcases ih ys with h' | h' | h'
        · left; right; exact ⟨h, h'⟩
        · right; left; exact ⟨h, h'⟩
        · right; right; right; exact ⟨h.symm, h'⟩
      · right; right; left; exact h

theorem strLt_asymm {a b : List Nat} (h : strLt a b = true) : strLt b a = false := by
  cases hba : strLt b a with
  | false => rfl
  | true =>
    have := strLt_trans h hba
    rw [strLt_irrefl] at this
    cases this

theorem strLt_of_not_ge {a b : List Nat} (h : strLt a b = false) (hne : a ≠ b) :
    strLt b a = true := by
  rcases strLt_trichotomy a b with h' | h' | h'
  · rw [h] at h'; cases h'
  · exact absurd h' hne
  · exact h'

theorem keyLe_total (a b : DictEntry) : keyLe a b ∨ keyLe b a := by
  unfold keyLe DictEntry.PtrCmp
  cases h : strLt b.key a.key with
  | false => left; rfl
  | true => right; exact strLt_asymm h

theorem keyLe_trans {a b c : DictEntry} (h₁ : keyLe a b) (h₂ : keyLe b c) : keyLe a c := by
  unfold keyLe DictEntry.PtrCmp at *
  cases hca : strLt c.key a.key with
  | false => rfl
  | true =>
    exfalso
    rcases strLt_trichotomy a.key b.key with h | h | h
    · have := strLt_trans hca h
      rw [h₂] at this; cases this
    · rw [← h, hca] at h₂; cases h₂
    · rw [h₁] at h; cases h

instance : IsTotal DictEntry keyLe := ⟨keyLe_total⟩

instance : IsTrans DictEntry keyLe := ⟨fun _ _ _ => keyLe_trans⟩

/-- Insertion sort by key meets the contract of `std::sort`; it is the sort used to run
the embedding on concrete dictionaries. -/
def insertionStdSort : StdSort where
  sort := List.insertionSort keyLe
  perm := List.perm_insertionSort keyLe
  ascending := fun l => List.sorted_insertionSort keyLe l

/-- Insertion sort of the reversed range also meets the contract of `std::sort`; it
leaves entries with equal keys in the reverse of their former order. -/
def reversingStdSort : StdSort where
  sort := fun l => List.insertionSort keyLe l.reverse
  perm := fun l => (List.perm_insertionSort keyLe l.reverse).trans (List.reverse_perm l)
  ascending := fun l => List.sorted_insertionSort keyLe l.reverse

/-! ## Scanning valid text -/

open UTF8Util in
theorem FindNextInline.go_append (ch : Nat) (k rest : List Nat) (skip : Nat)
    (hvalid : ValidUTF8.scan skip k = true)
    (hk : ∀ b ∈ k, IsLineEndingOrFileEnding b = false ∧ b ≠ ch)
    (hrest : IsLineEndingOrFileEnding (rest.headD 0) = true ∨ rest.headD 0 = ch) :
    FindNextInline.go ch (k ++ rest) skip = .ok k.length := by
  induction k generalizing skip with
  | nil =>
    cases skip with
    | succ n => simp [ValidUTF8.scan] at hvalid
    | zero =>
      cases rest with
      | nil => rfl
      | cons b r =>
        simp only [List.headD_cons] at hrest
        simp only [List.nil_append, FindNextInline.go, List.length_nil]
        rcases hrest with h | h
        · simp [h]
        · simp [h]
  | cons b k ih =>
    have hk' : ∀ b ∈ k, IsLineEndingOrFileEnding b = false ∧ b ≠ ch :=
      fun x hx => hk x (List.mem_cons_of_mem _ hx)
    cases skip with
    | succ n =>
      simp only [ValidUTF8.scan, Bool.and_eq_true] at hvalid
      have h : FindNextInline.go ch (k.append rest) n = .ok k.length := ih n hvalid.2 hk'
      simp only [List.cons_append, FindNextInline.go, List.length_cons]
      rw [h]
    | zero =>
      obtain ⟨hb₁, hb₂⟩ := hk b (List.mem_cons_self _ _)
      simp only [ValidUTF8.scan] at hvalid
      simp only [List.cons_append, FindNextInline.go, hb₁, Bool.false_or, beq_iff_eq, hb₂,
        if_false, List.length_cons]
      cases hn : NextCharLength b with
      | error e => rw [hn] at hvalid; cases hvalid
      | ok n =>
        rw [hn] at hvalid
        have h : FindNextInline.go ch (k.append rest) (n - 1) = .ok k.length :=
          ih (n - 1) hvalid hk'
        simp only []
        rw [h]

theorem intercalate_cons_cons (sep v w : List Nat) (vs : List (List Nat)) :
    sep.intercalate (v :: w :: vs) = v ++ (sep ++ sep.intercalate (w :: vs)) := by
  simp [List.intercalate, List.intersperse]

theorem intercalate_singleton (sep v : List Nat) : sep.intercalate [v] = v := by
  simp [List.intercalate, List.intersperse]

open UTF8Util in
theorem NextChar_ascii (sep : Nat) (rest : List Nat) (hsep : sep < 0x80) :
    NextChar (sep :: rest) = .ok rest := by
  simp [NextChar, NextCharLength, hsep]

open UTF8Util in
theorem ParseKeyValues.loop_stop (fuel : Nat) (ending : List Nat) (acc : List (List Nat))
    (hend : IsLineEndingOrFileEnding (ending.headD 0) = true) :
    ParseKeyValues.loop (fuel + 1) ending acc = .ok acc := by
  rw [ParseKeyValues.loop, if_pos hend]

open UTF8Util in
theorem ParseKeyValues.loop_values (ending : List Nat)
    (hend : IsLineEndingOrFileEnding (ending.headD 0) = true) :
    ∀ (vs : List (List Nat)) (sep : Nat) (acc : List (List Nat)) (fuel : Nat),
      vs ≠ [] → sep < 0x80 → IsLineEndingOrFileEnding sep = false →
      (∀ v ∈ vs, ValidUTF8 v ∧ ∀ b ∈ v, IsLineEndingOrFileEnding b = false ∧ b ≠ 32) →
      (sep :: ([32].intercalate vs ++ ending)).length < fuel →
      ParseKeyValues.loop fuel (sep :: ([32].intercalate vs ++ ending)) acc
        = .ok (acc ++ vs) := by
  intro vs
  induction vs with
  | nil => intro _ _ _ h; exact absurd rfl h
  | cons v rest ih =>
    intro sep acc fuel _ hsep hsep' hv hfuel
    obtain ⟨hv₁, hv₂⟩ := hv v (List.mem_cons_self _ _)
    cases fuel with
    | zero => simp at hfuel
    | succ f =>
      cases rest with
      | nil =>
        rw [intercalate_singleton]
        have hfind : FindNextInline (v ++ ending) 32 = .ok v.length :=
          FindNextInline.go_append 32 v ending 0 hv₁ hv₂ (Or.inl hend)
        cases f with
        | zero => simp at hfuel
        | succ f' =>
          simp only [ParseKeyValues.loop, List.headD_cons, hsep', NextChar_ascii sep _ hsep,
            hfind, FromSubstr, List.drop_left, List.take_left, Bool.false_eq_true, if_false]
          exact ParseKeyValues.loop_stop f' ending _ hend
      | cons w ws =>
        rw [intercalate_cons_cons]
        have hfind : FindNextInline (v ++ ([32] ++ [32].intercalate (w :: ws) ++ ending)) 32
            = .ok v.length :=
          FindNextInline.go_append 32 v _ 0 hv₁ hv₂ (Or.inr (by simp))
        have hih := ih 32 (acc ++ [v]) f (by simp) (by decide) (by decide)
          (fun x hx => hv x (List.mem_cons_of_mem _ hx))
          (by simp only [List.length_cons, List.length_append] at hfuel ⊢
              simp only [intercalate_cons_cons, List.length_append, List.length_cons,
                List.length_nil] at hfuel
              omega)
        simp only [List.append_assoc] at hfind ⊢
        simp only [ParseKeyValues.loop, List.headD_cons, hsep', NextChar_ascii sep _ hsep,
          hfind, FromSubstr, List.drop_left, List.take_left]
        simp only [List.singleton_append, Bool.false_eq_true, if_false] at hih ⊢
        rw [hih]
        simp

open UTF8Util in
theorem ParseKeyValues_eq (k : List Nat) (vs : List (List Nat)) (ending : List Nat)
    (hk : ValidUTF8 k) (hk' : ∀ b ∈ k, IsLineEndingOrFileEnding b = false ∧ b ≠ 9)
    (hvs : vs ≠ [])
    (hv : ∀ v ∈ vs, ValidUTF8 v ∧ ∀ b ∈ v, IsLineEndingOrFileEnding b = false ∧ b ≠ 32)
    (hend : IsLineEndingOrFileEnding (ending.headD 0) = true) :
    ParseKeyValues (k ++ 9 :: ([32].intercalate vs ++ ending))
      = .ok { key := k, values := vs } := by
  have hfind : FindNextInline (k ++ 9 :: ([32].intercalate vs ++ ending)) 9 = .ok k.length :=
    FindNextInline.go_append 9 k _ 0 hk hk' (Or.inr (by simp))
  have hloop := ParseKeyValues.loop_values ending hend vs 9 []
    ((9 :: ([32].intercalate vs ++ ending)).length + 1) hvs (by decide) (by decide) hv
    (by omega)
  simp only [ParseKeyValues, hfind, List.drop_left, List.headD_cons, FromSubstr,
    List.take_left]
  rw [hloop]
  simp [IsLineEndingOrFileEnding]

/-! ## The search loops -/

namespace TextDict

theorem lookup_some {lexicon : List DictEntry} {key : List Nat} {e : DictEntry}
    (h : lookup lexicon key = some e) : e ∈ lexicon ∧ e.key = key := by
  unfold lookup at h
  cases hlb : lower_bound lexicon { key := key, values := [] } with
  | nil => rw [hlb] at h; cases h
  | cons found rest =>
    rw [hlb] at h
    simp only [] at h
    by_cases hkey : found.key = key
    · rw [if_pos hkey] at h
      cases h
      refine ⟨?_, hkey⟩
      have hsub : (e :: rest).Sublist lexicon := by
        rw [← hlb]; exact List.dropWhile_sublist _
      exact hsub.subset (List.mem_cons_self _ _)
    · rw [if_neg hkey] at h; cases h

theorem PrevCharLength_pos {pre : List Nat} {n : Nat}
    (h : UTF8Util.PrevCharLength pre = .ok n) : 1 ≤ n := by
  unfold UTF8Util.PrevCharLength at h
  split_ifs at h <;> cases h <;> omega

theorem length_resize (s : List Nat) (n : Nat) : (resize s n).length = n := by
  simp only [resize, List.length_append, List.length_take, List.length_replicate]
  omega

theorem resize_of_le {s : List Nat} {n : Nat} (h : n ≤ s.length) : resize s n = s.take n := by
  simp [resize, Nat.sub_eq_zero_of_le h]

theorem MatchAllPrefixes.loop_decreasing (pre : List Nat) (lexicon : List DictEntry) :
    ∀ (fuel : Nat) (key : List Nat) (len : Nat) (acc r : List DictEntry),
      MatchAllPrefixes.loop pre lexicon fuel key len acc = .ok r →
      acc.Pairwise (fun a b => b.key.length < a.key.length) →
      (∀ e ∈ acc, len < e.key.length) →
      r.Pairwise (fun a b => b.key.length < a.key.length) := by
  intro fuel
  induction fuel with
  | zero =>
    intro key len acc r h hacc _
    simp only [MatchAllPrefixes.loop] at h
    cases h; exact hacc
  | succ fuel ih =>
    intro key len acc r h hacc hlen
    simp only [MatchAllPrefixes.loop] at h
    by_cases hpos : len > 0
    · rw [if_pos hpos] at h
      cases hp : UTF8Util.PrevCharLength pre with
      | error e => rw [hp] at h; cases h
      | ok n =>
        rw [hp] at h
        simp only [] at h
        have hn := PrevCharLength_pos hp
        refine ih _ _ _ r h ?_ ?_
        · cases hl : lookup lexicon (resize key len) with
          | none => exact hacc
          | some found =>
            simp only []
            rw [List.pairwise_append]
            refine ⟨hacc, List.pairwise_singleton _ _, ?_⟩
            intro a ha b hb
            rw [List.mem_singleton] at hb
            subst hb
            rw [(lookup_some hl).2, length_resize]
            exact hlen a ha
        · intro e he
          cases hl : lookup lexicon (resize key len) with
          | none =>
            rw [hl] at he
            have := hlen e he
            omega
          | some found =>
            rw [hl] at he
            simp only [List.mem_append, List.mem_singleton] at he
            rcases he with he | he
            · have := hlen e he
              omega
            · subst he
              rw [(lookup_some hl).2, length_resize]
              omega
    · rw [if_neg hpos] at h
      cases h; exact hacc

end TextDict

/-! ## Insertion and the lazy sort -/

namespace TextDict

theorem foldl_AddKeyValue_lexicon (entries : List DictEntry) (d : TextDict) :
    (entries.foldl AddKeyValue d).lexicon = d.lexicon ++ entries := by
  induction entries generalizing d with
  | nil => simp
  | cons e es ih => simp [List.foldl_cons, ih, AddKeyValue]

theorem foldl_AddKeyValue_sorted (entries : List DictEntry) (d : TextDict)
    (h : entries ≠ []) : (entries.foldl AddKeyValue d).sorted = false := by
  induction entries generalizing d with
  | nil => exact absurd rfl h
  | cons e es ih =>
    cases es with
    | nil => simp [AddKeyValue]
    | cons e' es' => exact ih (AddKeyValue d e) (by simp)

theorem LoadFromFile.loop_error (fuel : Nat) :
    ∀ (fp : List Nat) (d d' : TextDict) (e : Error),
      LoadFromFile.loop fuel fp d = (.error e, d') →
      ∃ (good : List (List Nat)) (bad : List Nat) (rest : List (List Nat))
        (entries : List DictEntry),
        LoadFromFile.lines fuel fp = good ++ bad :: rest ∧
        good.map ParseKeyValues = entries.map .ok ∧
        ParseKeyValues bad = .error e ∧
        d' = entries.foldl AddKeyValue d := by
  induction fuel with
  | zero => intro fp d d' e h; simp [LoadFromFile.loop] at h
  | succ fuel ih =>
    intro fp d d' e h
    simp only [LoadFromFile.loop, LoadFromFile.lines] at h ⊢
    cases hf : fgets ENTRY_BUFF_SIZE fp with
    | none => rw [hf] at h; simp at h
    | some p =>
      obtain ⟨buff, fp'⟩ := p
      rw [hf] at h
      simp only [] at h ⊢
      cases hp : ParseKeyValues buff with
      | error e' =>
        rw [hp] at h
        simp only [Prod.mk.injEq, Except.error.injEq] at h
        obtain ⟨he, hd⟩ := h
        subst he; subst hd
        exact ⟨[], buff, _, [], rfl, rfl, hp, rfl⟩
      | ok entry =>
        rw [hp] at h
        simp only [] at h
        obtain ⟨good, bad, rest, entries, h₁, h₂, h₃, h₄⟩ := ih fp' _ d' e h
        refine ⟨buff :: good, bad, rest, entry :: entries, ?_, ?_, h₃, ?_⟩
        · rw [h₁]; rfl
        · simp [hp, h₂]
        · rw [h₄]; rfl

end TextDict

/-! ## The round trip through the text format -/

namespace TextDict

theorem c_str_eq (str : List Nat)
    (h : ∀ b ∈ str, UTF8Util.IsLineEndingOrFileEnding b = false) : c_str str = str := by
  unfold c_str
  rw [List.takeWhile_eq_self_iff]
  intro b hb
  have := h b hb
  simp only [UTF8Util.IsLineEndingOrFileEnding, Bool.or_eq_false_iff, beq_eq_false_iff_ne] at this
  simpa using this.1.1

theorem SerializeToFile.values_eq (vs : List (List Nat))
    (h : ∀ v ∈ vs, ∀ b ∈ v, UTF8Util.IsLineEndingOrFileEnding b = false) :
    SerializeToFile.values vs = [32].intercalate vs := by
  induction vs with
  | nil => rfl
  | cons v rest ih =>
    have hv := c_str_eq v (h v (List.mem_cons_self _ _))
    have hrest := ih (fun x hx => h x (List.mem_cons_of_mem _ hx))
    cases rest with
    | nil => simp [SerializeToFile.values, intercalate_singleton, hv]
    | cons w ws =>
      rw [intercalate_cons_cons, ← hrest]
      simp [SerializeToFile.values, hv]

theorem SerializeToFile.entries_cons (e : DictEntry) (rest : List DictEntry)
    (he : e.Representable) :
    SerializeToFile.entries (e :: rest) = e.line ++ SerializeToFile.entries rest := by
  obtain ⟨_, hk, _, _, hv, _⟩ := he
  have h₁ := c_str_eq e.key (fun b hb => (hk b hb).1)
  have h₂ := SerializeToFile.values_eq e.values (fun v hv' b hb => ((hv v hv').2 b hb).1)
  simp [SerializeToFile.entries, DictEntry.line, h₁, h₂]

end TextDict

theorem fgets.read_line (body rest : List Nat) (n : Nat) (hbody : ∀ b ∈ body, b ≠ 10)
    (hn : body.length < n) :
    fgets.read n (body ++ 10 :: rest) = (body ++ [10], rest) := by
  induction body generalizing n with
  | nil =>
    cases n with
    | zero => simp at hn
    | succ n => simp [fgets.read]
  | cons b body ih =>
    cases n with
    | zero => simp at hn
    | succ n =>
      have hb : b ≠ 10 := hbody b (List.mem_cons_self _ _)
      have h := ih n (fun x hx => hbody x (List.mem_cons_of_mem _ hx))
        (by simpa using hn)
      simp [fgets.read, hb, h]

theorem intercalate_space_no_newline (vs : List (List Nat))
    (h : ∀ v ∈ vs, ∀ b ∈ v, UTF8Util.IsLineEndingOrFileEnding b = false) :
    ∀ b ∈ [32].intercalate vs, b ≠ 10 := by
  induction vs with
  | nil => intro b hb; simp [List.intercalate] at hb
  | cons v rest ih =>
    have hv : ∀ b ∈ v, b ≠ 10 := by
      intro b hb hb'
      have := h v (List.mem_cons_self _ _) b hb
      rw [hb'] at this
      revert this; decide
    have hrest := ih (fun x hx => h x (List.mem_cons_of_mem _ hx))
    cases rest with
    | nil => rw [intercalate_singleton]; exact hv
    | cons w ws =>
      rw [intercalate_cons_cons]
      intro b hb
      simp only [List.mem_append, List.mem_singleton] at hb
      rcases hb with hb | hb | hb
      · exact hv b hb
      · rw [hb]; decide
      · exact hrest b hb

theorem fgets_line (e : DictEntry) (rest : List Nat) (he : e.Representable) :
    fgets ENTRY_BUFF_SIZE (e.line ++ rest) = some (e.line, rest) := by
  obtain ⟨_, hk, _, _, hv, hlen⟩ := he
  have hbody : ∀ b ∈ e.key ++ 9 :: [32].intercalate e.values, b ≠ 10 := by
    intro b hb
    simp only [List.mem_append, List.mem_cons] at hb
    rcases hb with hb | hb | hb
    · intro hb'
      have := (hk b hb).1
      rw [hb'] at this
      revert this; decide
    · rw [hb]; decide
    · exact intercalate_space_no_newline e.values
        (fun v hv' b hb => ((hv v hv').2 b hb).1) b hb
  have hline : e.line = (e.key ++ 9 :: [32].intercalate e.values) ++ [10] := by
    simp [DictEntry.line]
  have hread := fgets.read_line (e.key ++ 9 :: [32].intercalate e.values) rest
    (ENTRY_BUFF_SIZE - 1) hbody
    (by rw [hline] at hlen; simp only [List.length_append, List.length_cons,
          List.length_nil] at hlen ⊢; omega)
  have hne : e.line ++ rest ≠ [] := by simp [DictEntry.line]
  have hsplit : e.line ++ rest = (e.key ++ 9 :: [32].intercalate e.values) ++ 10 :: rest := by
    simp [DictEntry.line]
  rw [fgets, if_neg hne, hsplit, hread, hline]

theorem ParseKeyValues_line (e : DictEntry) (he : e.Representable) :
    ParseKeyValues e.line = .ok e := by
  obtain ⟨hk, hk', _, hvs, hv, _⟩ := he
  exact ParseKeyValues_eq e.key e.values [10] hk hk' hvs hv (by decide)

namespace TextDict

theorem LoadFromFile.loop_entries (lexicon : List DictEntry) :
    ∀ (d : TextDict) (fuel : Nat), (∀ e ∈ lexicon, e.Representable) →
      (SerializeToFile.entries lexicon).length ≤ fuel →
      LoadFromFile.loop fuel (SerializeToFile.entries lexicon) d
        = (.ok (), lexicon.foldl AddKeyValue d) := by
  induction lexicon with
  | nil =>
    intro d fuel _ _
    cases fuel with
    | zero => rfl
    | succ f => simp [SerializeToFile.entries, LoadFromFile.loop, fgets]
  | cons e rest ih =>
    intro d fuel h hfuel
    have he := h e (List.mem_cons_self _ _)
    rw [SerializeToFile.entries_cons e rest he] at hfuel ⊢
    have hpos : 0 < e.line.length := by simp [DictEntry.line]
    cases fuel with
    | zero => simp only [List.length_append] at hfuel; omega
    | succ f =>
      simp only [LoadFromFile.loop, fgets_line e _ he, ParseKeyValues_line e he]
      rw [ih (AddKeyValue d e) f (fun x hx => h x (List.mem_cons_of_mem _ hx))
        (by simp only [List.length_append] at hfuel; omega)]
      rfl

end TextDict

theorem SkipUtf8Bom_line (k rest : List Nat) (hk : ¬ [0xEF, 0xBB, 0xBF] <+: k) :
    UTF8Util.SkipUtf8Bom (k ++ 9 :: rest) = k ++ 9 :: rest := by
  unfold UTF8Util.SkipUtf8Bom
  rw [if_neg]
  intro h
  match k, hk, h with
  | [], _, h => simp at h
  | [a], _, h => simp at h
  | [a, b], _, h => simp at h
  | a :: b :: c :: k, hk, h =>
    simp only [List.cons_append, List.take_succ_cons, List.take_zero, List.cons.injEq,
      and_true] at h
    apply hk
    obtain ⟨h₁, h₂, h₃⟩ := h
    subst h₁; subst h₂; subst h₃
    exact ⟨k, rfl⟩

theorem SkipUtf8Bom_entries (lexicon : List DictEntry) (h : ∀ e ∈ lexicon, e.Representable) :
    UTF8Util.SkipUtf8Bom (TextDict.SerializeToFile.entries lexicon)
      = TextDict.SerializeToFile.entries lexicon := by
  cases lexicon with
  | nil => rfl
  | cons e rest =>
    have he := h e (List.mem_cons_self _ _)
    rw [TextDict.SerializeToFile.entries_cons e rest he]
    have := SkipUtf8Bom_line e.key ([32].intercalate e.values ++ [10]
      ++ TextDict.SerializeToFile.entries rest) he.2.2.1
    simpa [DictEntry.line] using this

/-! ## Uniqueness of the sorted order for distinct keys -/

theorem strict_of_ascending {l : List DictEntry} (h : Ascending l)
    (hkeys : (l.map DictEntry.key).Nodup) :
    l.Pairwise (fun a b => strLt a.key b.key = true) := by
  have hne : l.Pairwise (fun a b => a.key ≠ b.key) := by
    rw [List.Nodup, List.pairwise_map] at hkeys
    exact hkeys
  refine (List.Pairwise.and h hne).imp ?_
  intro a b hab
  exact strLt_of_not_ge hab.1 (Ne.symm hab.2)

instance : IsAntisymm DictEntry (fun a b => strLt a.key b.key = true) :=
  ⟨fun _ _ h₁ h₂ => by have := strLt_asymm h₁; rw [h₂] at this; cases this⟩

theorem StdSort.sort_eq_self (S : StdSort) {l : List DictEntry} (h : Ascending l)
    (hkeys : (l.map DictEntry.key).Nodup) : S.sort l = l := by
  have hp := S.perm l
  have hkeys' : ((S.sort l).map DictEntry.key).Nodup :=
    ((hp.map DictEntry.key).nodup_iff).mpr hkeys
  exact List.eq_of_perm_of_sorted hp (strict_of_ascending (S.ascending l) hkeys')
    (strict_of_ascending h hkeys)

namespace TextDict

theorem SortLexicon_sorted (S : StdSort) (d : TextDict) : (SortLexicon S d).sorted = true := by
  unfold SortLexicon
  cases h : d.sorted <;> simp [h]

theorem SortLexicon_idem (S : StdSort) (d : TextDict) :
    SortLexicon S (SortLexicon S d) = SortLexicon S d := by
  have h := SortLexicon_sorted S d
  rw [SortLexicon, h]
  rfl

theorem SortLexicon_perm (S : StdSort) (d : TextDict) :
    (SortLexicon S d).lexicon.Perm d.lexicon := by
  unfold SortLexicon
  cases h : d.sorted
  · simpa using S.perm d.lexicon
  · simp

theorem SortLexicon_ascending (S : StdSort) (d : TextDict)
    (hflag : d.sorted = true → Ascending d.lexicon) : Ascending (SortLexicon S d).lexicon := by
  unfold SortLexicon
  cases h : d.sorted
  · simpa using S.ascending d.lexicon
  · simpa using hflag h

theorem SortLexicon_foldl (S : StdSort) (lexicon : List DictEntry) (maxLength₀ : Nat)
    (h : Ascending lexicon) (hkeys : (lexicon.map DictEntry.key).Nodup) :
    (SortLexicon S (lexicon.foldl AddKeyValue (new maxLength₀))).lexicon = lexicon := by
  cases lexicon with
  | nil => rfl
  | cons e es =>
    have hs := foldl_AddKeyValue_sorted (e :: es) (new maxLength₀) (by simp)
    have hl := foldl_AddKeyValue_lexicon (e :: es) (new maxLength₀)
    simp only [SortLexicon, hs, Bool.not_false, if_true, hl]
    simpa [new] using S.sort_eq_self h hkeys

end TextDict

/-! ## Lookup in a sorted lexicon -/

namespace TextDict

theorem lookup_cons_of_lt {x : DictEntry} {xs : List DictEntry} {key : List Nat}
    (h : strLt x.key key = true) : lookup (x :: xs) key = lookup xs key := by
  simp [lookup, lower_bound, List.dropWhile, DictEntry.PtrCmp, h]

theorem lookup_cons_of_not_lt {x : DictEntry} {xs : List DictEntry} {key : List Nat}
    (h : strLt x.key key = false) :
    lookup (x :: xs) key = if x.key = key then some x else none := by
  simp [lookup, lower_bound, List.dropWhile, DictEntry.PtrCmp, h]

theorem lookup_of_mem {lexicon : List DictEntry} (hasc : Ascending lexicon) {e : DictEntry}
    (he : e ∈ lexicon) :
    ∃ found, lookup lexicon e.key = some found ∧ found.key = e.key ∧ found ∈ lexicon := by
  induction lexicon with
  | nil => cases he
  | cons x xs ih =>
    have hx : ∀ y ∈ xs, strLt y.key x.key = false := by
      intro y hy
      have := (List.pairwise_cons.mp hasc).1 y hy
      simpa [DictEntry.PtrCmp] using this
    cases hlt : strLt x.key e.key with
    | true =>
      rw [lookup_cons_of_lt hlt]
      have hne : e ≠ x := by
        intro h; rw [h, strLt_irrefl] at hlt; cases hlt
      have he' : e ∈ xs := by
        rcases List.mem_cons.mp he with h | h
        · exact absurd h hne
        · exact h
      obtain ⟨found, h₁, h₂, h₃⟩ := ih (List.pairwise_cons.mp hasc).2 he'
      exact ⟨found, h₁, h₂, List.mem_cons_of_mem _ h₃⟩
    | false =>
      rw [lookup_cons_of_not_lt hlt]
      have hkey : x.key = e.key := by
        rcases List.mem_cons.mp he with h | h
        · rw [h]
        · by_contra hne
          have := strLt_of_not_ge hlt hne
          rw [hx e h] at this; cases this
      exact ⟨x, by rw [if_pos hkey], hkey, List.mem_cons_self _ _⟩

theorem lookup_eq_none {lexicon : List DictEntry} (hasc : Ascending lexicon) {key : List Nat}
    (h : lookup lexicon key = none) : ∀ e ∈ lexicon, e.key ≠ key := by
  intro e he hkey
  obtain ⟨found, h₁, _, _⟩ := lookup_of_mem hasc he
  rw [hkey, h] at h₁
  cases h₁

end TextDict

/-! ## Truncation of valid text -/

namespace UTF8Util

theorem NextCharLength_pos {b n : Nat} (h : NextCharLength b = .ok n) : 1 ≤ n := by
  unfold NextCharLength at h
  split_ifs at h <;> cases h <;> omega

theorem ValidUTF8.scan_length {skip : Nat} {str : List Nat}
    (h : ValidUTF8.scan skip str = true) : skip ≤ str.length := by
  induction str generalizing skip with
  | nil =>
    cases skip with
    | zero => exact Nat.le_refl _
    | succ k => simp [ValidUTF8.scan] at h
  | cons b rest ih =>
    cases skip with
    | zero => exact Nat.zero_le _
    | succ k =>
      simp only [ValidUTF8.scan, Bool.and_eq_true] at h
      have := ih h.2
      simp only [List.length_cons]
      omega

theorem Truncate.go_spec (str : List Nat) :
    ∀ (skip budget : Nat), ValidUTF8.scan skip str = true →
      ∃ n, Truncate.go str skip budget = .ok n ∧ n ≤ str.length ∧ n ≤ skip + budget ∧
        ValidUTF8.scan skip (str.take n) = true ∧
        ∀ p : List Nat, p <+: str → ValidUTF8.scan skip p = true →
          p.length ≤ skip + budget → p.length ≤ n := by
  induction str with
  | nil =>
    intro skip budget h
    cases skip with
    | succ k => simp [ValidUTF8.scan] at h
    | zero =>
      refine ⟨0, rfl, Nat.le_refl _, Nat.zero_le _, by simp [ValidUTF8.scan], ?_⟩
      intro p hp _ _
      rw [List.prefix_nil.mp hp]
      exact Nat.le_refl _
  | cons b rest ih =>
    intro skip budget h
    cases skip with
    | succ k =>
      simp only [ValidUTF8.scan, Bool.and_eq_true] at h
      obtain ⟨n, h₁, h₂, h₃, h₄, h₅⟩ := ih k budget h.2
      refine ⟨n + 1, ?_, ?_, ?_, ?_, ?_⟩
      · simp only [Truncate.go, h₁]
      · simp only [List.length_cons]; omega
      · omega
      · simp only [List.take_succ_cons, ValidUTF8.scan, h.1, h₄, Bool.and_self]
      · intro p hp hvalid hlen
        cases p with
        | nil => simp [ValidUTF8.scan] at hvalid
        | cons c p' =>
          simp only [ValidUTF8.scan, Bool.and_eq_true] at hvalid
          have hp' : p' <+: rest := (List.cons_prefix_cons.mp hp).2
          have := h₅ p' hp' hvalid.2 (by simp only [List.length_cons] at hlen; omega)
          simp only [List.length_cons]
          omega
    | zero =>
      simp only [ValidUTF8.scan] at h
      cases hn : NextCharLength b with
      | error e => rw [hn] at h; cases h
      | ok m =>
        rw [hn] at h
        simp only [] at h
        have hm := NextCharLength_pos hn
        by_cases hfit : m ≤ budget
        · obtain ⟨n, h₁, h₂, h₃, h₄, h₅⟩ := ih (m - 1) (budget - m) h
          refine ⟨n + 1, ?_, ?_, ?_, ?_, ?_⟩
          · simp only [Truncate.go, hn, if_pos hfit, h₁]
          · simp only [List.length_cons]; omega
          · omega
          · simp only [List.take_succ_cons, ValidUTF8.scan, hn, h₄]
          · intro p hp hvalid hlen
            cases p with
            | nil => simp
            | cons c p' =>
              obtain ⟨hc, hp'⟩ := List.cons_prefix_cons.mp hp
              subst hc
              simp only [ValidUTF8.scan, hn] at hvalid
              have := h₅ p' hp' hvalid
                (by simp only [List.length_cons] at hlen; omega)
              simp only [List.length_cons]
              omega
        · refine ⟨0, ?_, Nat.zero_le _, Nat.zero_le _, by simp [ValidUTF8.scan], ?_⟩
          · simp only [Truncate.go, hn, if_neg hfit]
          · intro p hp hvalid hlen
            cases p with
            | nil => simp
            | cons c p' =>
              obtain ⟨hc, _⟩ := List.cons_prefix_cons.mp hp
              subst hc
              simp only [ValidUTF8.scan, hn] at hvalid
              have := ValidUTF8.scan_length hvalid
              simp only [List.length_cons] at hlen
              omega

theorem Truncate_spec (word : List Nat) (maxLength : Nat) (hword : ValidUTF8 word) :
    ∃ n, Truncate word maxLength = .ok (word.take n) ∧ n ≤ word.length ∧ n ≤ maxLength ∧
      ValidUTF8 (word.take n) ∧
      ∀ p : List Nat, p <+: word → ValidUTF8 p → p.length ≤ maxLength → p.length ≤ n := by
  obtain ⟨n, h₁, h₂, h₃, h₄, h₅⟩ := Truncate.go_spec word 0 maxLength hword
  refine ⟨n, ?_, h₂, by omega, h₄, ?_⟩
  · simp only [Truncate, h₁]
  · intro p hp hvalid hlen
    exact h₅ p hp hvalid (by omega)

end UTF8Util

/-! ## The search loops when the byte before the candidate buffer is a one-byte character

When the byte stored before the buffer of the candidate key is the leading byte of a
one-byte character, `PrevCharLength(keyPtr)` is `1` and the loops try every byte length
from the length of the truncated text down to `1`. -/

namespace TextDict

theorem take_resize {key : List Nat} {len l : Nat} (hlen : len ≤ key.length) (hl : l ≤ len) :
    (resize key len).take l = key.take l := by
  rw [resize_of_le hlen, List.take_take, Nat.min_eq_left hl]

theorem MatchPrefix_loop_step_one (pre : List Nat) (lexicon : List DictEntry)
    (hpre : UTF8Util.PrevCharLength pre = .ok 1) :
    ∀ (fuel : Nat) (key : List Nat) (len : Nat), len ≤ fuel → len ≤ key.length →
      ∃ r, MatchPrefix.loop pre lexicon fuel key len = .ok r ∧
        (∀ e, r = some e → e ∈ lexicon ∧ 0 < e.key.length ∧ e.key.length ≤ len ∧
          e.key = key.take e.key.length ∧
          ∀ l, e.key.length < l → l ≤ len → lookup lexicon (key.take l) = none) ∧
        (r = none → ∀ l, 0 < l → l ≤ len → lookup lexicon (key.take l) = none) := by
  intro fuel
  induction fuel with
  | zero =>
    intro key len hfuel _
    refine ⟨none, rfl, (fun e he => by cases he), fun _ l hl hl' => ?_⟩
    omega
  | succ fuel ih =>
    intro key len hfuel hlen
    by_cases hpos : len > 0
    · simp only [MatchPrefix.loop, if_pos hpos]
      cases hl : lookup lexicon (resize key len) with
      | some found =>
        obtain ⟨hmem, hkey⟩ := lookup_some hl
        have hlength : found.key.length = len := by rw [hkey, length_resize]
        refine ⟨some found, rfl, ?_, (fun h => by cases h)⟩
        intro e he
        cases he
        refine ⟨hmem, by omega, by omega, ?_, fun l h₁ h₂ => by omega⟩
        rw [hlength, ← resize_of_le hlen]
        exact hkey
      | none =>
        simp only [hpre]
        obtain ⟨r, h₁, h₂, h₃⟩ := ih (resize key len) (len - 1) (by omega)
          (by rw [length_resize]; omega)
        refine ⟨r, h₁, ?_, ?_⟩
        · intro e he
          obtain ⟨hmem, hpos', hle, hkey, hnone⟩ := h₂ e he
          refine ⟨hmem, hpos', by omega, ?_, ?_⟩
          · rw [take_resize hlen (by omega)] at hkey
            exact hkey
          · intro l hl₁ hl₂
            by_cases hll : l = len
            · subst hll
              rw [← resize_of_le hlen]
              exact hl
            · have := hnone l hl₁ (by omega)
              rw [take_resize hlen (by omega)] at this
              exact this
        · intro hr l hl₁ hl₂
          by_cases hll : l = len
          · subst hll
            rw [← resize_of_le hlen]
            exact hl
          · have := h₃ hr l hl₁ (by omega)
            rw [take_resize hlen (by omega)] at this
            exact this
    · simp only [MatchPrefix.loop, if_neg hpos]
      refine ⟨none, rfl, (fun e he => by cases he), fun _ l hl hl' => ?_⟩
      omega

theorem MatchAllPrefixes_loop_step_one (pre : List Nat) (lexicon : List DictEntry)
    (hpre : UTF8Util.PrevCharLength pre = .ok 1) :
    ∀ (fuel : Nat) (key : List Nat) (len : Nat) (acc : List DictEntry),
      len ≤ fuel → len ≤ key.length →
      ∃ r, MatchAllPrefixes.loop pre lexicon fuel key len acc = .ok r ∧
        ∀ e, e ∈ r ↔ e ∈ acc ∨
          ∃ l, 0 < l ∧ l ≤ len ∧ lookup lexicon (key.take l) = some e := by
  intro fuel
  induction fuel with
  | zero =>
    intro key len acc hfuel _
    refine ⟨acc, rfl, fun e => ⟨fun h => Or.inl h, fun h => ?_⟩⟩
    rcases h with h | ⟨l, h₁, h₂, _⟩
    · exact h
    · omega
  | succ fuel ih =>
    intro key len acc hfuel hlen
    by_cases hpos : len > 0
    · simp only [MatchAllPrefixes.loop, if_pos hpos, hpre]
      obtain ⟨r, h₁, h₂⟩ := ih (resize key len) (len - 1)
        (match lookup lexicon (resize key len) with
          | some found => acc ++ [found]
          | none => acc) (by omega) (by rw [length_resize]; omega)
      refine ⟨r, h₁, ?_⟩
      intro e
      rw [h₂ e]
      constructor
      · rintro (h | ⟨l, hl₁, hl₂, hl₃⟩)
        · cases hl : lookup lexicon (resize key len) with
          | none => rw [hl] at h; exact Or.inl h
          | some found =>
            rw [hl] at h
            simp only [List.mem_append, List.mem_singleton] at h
            rcases h with h | h
            · exact Or.inl h
            · subst h
              exact Or.inr ⟨len, hpos, Nat.le_refl _, by rw [← resize_of_le hlen]; exact hl⟩
        · rw [take_resize hlen (by omega)] at hl₃
          exact Or.inr ⟨l, hl₁, by omega, hl₃⟩
      · rintro (h | ⟨l, hl₁, hl₂, hl₃⟩)
        · left
          cases lookup lexicon (resize key len) with
          | none => exact h
          | some found => exact List.mem_append_left _ h
        · by_cases hll : l = len
          · subst hll
            left
            rw [resize_of_le hlen, hl₃]
            simp
          · right
            refine ⟨l, hl₁, by omega, ?_⟩
            rw [take_resize hlen (by omega)]
            exact hl₃
    · simp only [MatchAllPrefixes.loop, if_neg hpos]
      refine ⟨acc, rfl, fun e => ⟨fun h => Or.inl h, fun h => ?_⟩⟩
      rcases h with h | ⟨l, h₁, h₂, _⟩
      · exact h
      · omega

end TextDict

namespace TextDict

theorem Consistent_new (maxLength₀ : Nat) : (new maxLength₀).Consistent :=
  ⟨fun _ => List.Pairwise.nil, fun e he => absurd he (List.not_mem_nil e)⟩

theorem Consistent_AddKeyValue {d : TextDict} (h : d.Consistent) (entry : DictEntry) :
    (AddKeyValue d entry).Consistent := by
  refine ⟨(fun hs => by cases hs), ?_⟩
  intro e he
  simp only [AddKeyValue, List.mem_append, List.mem_singleton] at he ⊢
  rcases he with he | he
  · have := h.2 e he
    omega
  · subst he
    omega

theorem SortLexicon_maxLength (S : StdSort) (d : TextDict) :
    (SortLexicon S d).maxLength = d.maxLength := by
  unfold SortLexicon
  cases d.sorted <;> rfl

theorem Consistent_SortLexicon (S : StdSort) {d : TextDict} (h : d.Consistent) :
    (SortLexicon S d).Consistent := by
  refine ⟨fun _ => SortLexicon_ascending S d h.1, ?_⟩
  intro e he
  rw [SortLexicon_maxLength]
  exact h.2 e ((SortLexicon_perm S d).subset he)

theorem Consistent_foldl_AddKeyValue (entries : List DictEntry) {d : TextDict}
    (h : d.Consistent) : (entries.foldl AddKeyValue d).Consistent := by
  induction entries generalizing d with
  | nil => exact h
  | cons e es ih => exact ih (Consistent_AddKeyValue h e)

theorem LoadFromFile.loop_Consistent (fuel : Nat) :
    ∀ (fp : List Nat) (d : TextDict), d.Consistent →
      (LoadFromFile.loop fuel fp d).2.Consistent := by
  induction fuel with
  | zero => intro fp d h; exact h
  | succ fuel ih =>
    intro fp d h
    simp only [LoadFromFile.loop]
    cases fgets ENTRY_BUFF_SIZE fp with
    | none => exact h
    | some p =>
      obtain ⟨buff, fp'⟩ := p
      simp only []
      cases ParseKeyValues buff with
      | error e => exact h
      | ok entry => exact ih fp' _ (Consistent_AddKeyValue h entry)

theorem Consistent_LoadFromFile (S : StdSort) {d : TextDict} (h : d.Consistent)
    (fp : List Nat) : (LoadFromFile S d fp).2.Consistent := by
  have hloop := LoadFromFile.loop_Consistent (UTF8Util.SkipUtf8Bom fp).length
    (UTF8Util.SkipUtf8Bom fp) d h
  unfold LoadFromFile
  simp only []
  cases hl : LoadFromFile.loop (UTF8Util.SkipUtf8Bom fp).length (UTF8Util.SkipUtf8Bom fp) d with
  | mk r d' =>
    rw [hl] at hloop
    cases r with
    | error e => exact hloop
    | ok u => exact Consistent_SortLexicon S hloop

/-- With a one-byte character before the candidate buffer, `MatchPrefix` on a consistent
store with valid UTF-8 keys and a valid UTF-8 text returns the entry of the longest
non-empty key that is a prefix of the text, and no match exactly when there is none. -/
theorem MatchPrefix_step_one (S : StdSort) (pre : List Nat) (d : TextDict) (word : List Nat)
    (hpre : UTF8Util.PrevCharLength pre = .ok 1) (hd : d.Consistent)
    (hkeys : ∀ e ∈ d.lexicon, UTF8Util.ValidUTF8 e.key) (hword : UTF8Util.ValidUTF8 word) :
    ∃ r, (MatchPrefix S pre d word).1 = .ok r ∧
      (∀ e, r = some e → e ∈ d.lexicon ∧ e.key ≠ [] ∧ e.key <+: word ∧
        ∀ e' ∈ d.lexicon, e'.key <+: word → e'.key.length ≤ e.key.length) ∧
      (r = none ↔ ∀ e' ∈ d.lexicon, e'.key <+: word → e'.key = []) := by
  have hperm := SortLexicon_perm S d
  have hasc := SortLexicon_ascending S d hd.1
  obtain ⟨n, hT, hn₁, hn₂, _, hTmax⟩ :=
    UTF8Util.Truncate_spec word (SortLexicon S d).maxLength hword
  have hlenT : (word.take n).length = n := by rw [List.length_take]; omega
  obtain ⟨r, hr, hsome, hnone⟩ := MatchPrefix_loop_step_one pre (SortLexicon S d).lexicon hpre
    (word.take n).length (word.take n) (word.take n).length (Nat.le_refl _) (Nat.le_refl _)
  -- every key of the store that is a prefix of the text is looked up by the loop
  have hfound : ∀ e' ∈ d.lexicon, e'.key <+: word → e'.key.length ≤ n ∧
      ∃ found, lookup (SortLexicon S d).lexicon ((word.take n).take e'.key.length)
        = some found := by
    intro e' he' hp
    have hle : e'.key.length ≤ n :=
      hTmax e'.key hp (hkeys e' he')
        (by rw [SortLexicon_maxLength]; exact hd.2 e' he')
    refine ⟨hle, ?_⟩
    obtain ⟨found, hf, _, _⟩ := lookup_of_mem hasc (hperm.mem_iff.mpr he')
    refine ⟨found, ?_⟩
    rw [List.take_take, Nat.min_eq_left hle, ← List.prefix_iff_eq_take.mp hp]
    exact hf
  refine ⟨r, ?_, ?_, ?_⟩
  · simp only [MatchPrefix, hT, hr]
  · intro e he
    obtain ⟨hmem, hpos, hle, hkey, hrest⟩ := hsome e he
    rw [hlenT] at hle
    rw [List.take_take, Nat.min_eq_left hle] at hkey
    refine ⟨hperm.subset hmem, ?_, ?_, ?_⟩
    · intro h; rw [h] at hpos; simp at hpos
    · rw [hkey]; exact List.take_prefix _ _
    · intro e' he' hp
      by_contra hlt
      obtain ⟨hle', found, hf⟩ := hfound e' he' hp
      rw [hrest e'.key.length (by omega) (by rw [hlenT]; exact hle')] at hf
      cases hf
  · constructor
    · intro hr' e' he' hp
      by_contra hne
      obtain ⟨hle', found, hf⟩ := hfound e' he' hp
      have hpos : 0 < e'.key.length := List.length_pos.mpr hne
      rw [hnone hr' e'.key.length hpos (by rw [hlenT]; exact hle')] at hf
      cases hf
    · intro hall
      cases r with
      | none => rfl
      | some e =>
        obtain ⟨hmem, hpos, hle, hkey, _⟩ := hsome e rfl
        rw [hlenT] at hle
        rw [List.take_take, Nat.min_eq_left hle] at hkey
        have := hall e (hperm.subset hmem) (by rw [hkey]; exact List.take_prefix _ _)
        rw [this] at hpos
        simp at hpos

/-- With a one-byte character before the candidate buffer, `MatchAllPrefixes` on a
consistent store with pairwise distinct valid UTF-8 keys and a valid UTF-8 text returns
exactly the entries whose non-empty key is a prefix of the text, each once. -/
theorem MatchAllPrefixes_step_one (S : StdSort) (pre : List Nat) (d : TextDict)
    (word : List Nat) (hpre : UTF8Util.PrevCharLength pre = .ok 1) (hd : d.Consistent)
    (hkeys : ∀ e ∈ d.lexicon, UTF8Util.ValidUTF8 e.key)
    (hdistinct : (d.lexicon.map DictEntry.key).Nodup) (hword : UTF8Util.ValidUTF8 word) :
    ∃ r, (MatchAllPrefixes S pre d word).1 = .ok r ∧ r.Nodup ∧
      ∀ e, e ∈ r ↔ e ∈ d.lexicon ∧ e.key ≠ [] ∧ e.key <+: word := by
  have hperm := SortLexicon_perm S d
  have hasc := SortLexicon_ascending S d hd.1
  obtain ⟨n, hT, hn₁, hn₂, _, hTmax⟩ :=
    UTF8Util.Truncate_spec word (SortLexicon S d).maxLength hword
  have hlenT : (word.take n).length = n := by rw [List.length_take]; omega
  obtain ⟨r, hr, hmem⟩ := MatchAllPrefixes_loop_step_one pre (SortLexicon S d).lexicon hpre
    (word.take n).length (word.take n) (word.take n).length [] (Nat.le_refl _) (Nat.le_refl _)
  have hdec := MatchAllPrefixes.loop_decreasing pre _ _ _ _ [] r hr List.Pairwise.nil
    (fun e he => absurd he (List.not_mem_nil e))
  refine ⟨r, ?_, ?_, ?_⟩
  · simp only [MatchAllPrefixes, hT, hr]
  · refine hdec.imp ?_
    intro a b hab heq
    rw [heq] at hab
    exact Nat.lt_irrefl _ hab
  · intro e
    rw [hmem e]
    constructor
    · rintro (h | ⟨l, hl₁, hl₂, hl₃⟩)
      · cases h
      · obtain ⟨hin, hkey⟩ := lookup_some hl₃
        rw [hlenT] at hl₂
        rw [List.take_take, Nat.min_eq_left hl₂] at hkey
        refine ⟨hperm.subset hin, ?_, ?_⟩
        · intro h
          have hlen : e.key.length = l := by rw [hkey, List.length_take]; omega
          rw [h] at hlen
          simp at hlen
          omega
        · rw [hkey]; exact List.take_prefix _ _
    · rintro ⟨hin, hne, hp⟩
      right
      have hle : e.key.length ≤ n :=
        hTmax e.key hp (hkeys e hin) (by rw [SortLexicon_maxLength]; exact hd.2 e hin)
      obtain ⟨found, hf, hfk, hfin⟩ := lookup_of_mem hasc (hperm.mem_iff.mpr hin)
      have hfe : found = e :=
        List.inj_on_of_nodup_map hdistinct (hperm.subset hfin) hin hfk
      refine ⟨e.key.length, List.length_pos.mpr hne, by rw [hlenT]; exact hle, ?_⟩
      rw [List.take_take, Nat.min_eq_left hle, ← List.prefix_iff_eq_take.mp hp, hf, hfe]

end TextDict

namespace TextDict

theorem MatchPrefix.loop_sound (pre : List Nat) (lexicon : List DictEntry) :
    ∀ (fuel : Nat) (key : List Nat) (len : Nat) (e : DictEntry), len ≤ key.length →
      MatchPrefix.loop pre lexicon fuel key len = .ok (some e) →
      e ∈ lexicon ∧ e.key ≠ [] ∧ e.key <+: key := by
  intro fuel
  induction fuel with
  | zero => intro key len e _ h; simp [MatchPrefix.loop] at h
  | succ fuel ih =>
    intro key len e hlen h
    by_cases hpos : len > 0
    · simp only [MatchPrefix.loop, if_pos hpos] at h
      cases hl : lookup lexicon (resize key len) with
      | some found =>
        rw [hl] at h
        simp only [Except.ok.injEq, Option.some.injEq] at h
        subst h
        obtain ⟨hmem, hkey⟩ := lookup_some hl
        refine ⟨hmem, ?_, ?_⟩
        · intro hnil
          have := length_resize key len
          rw [← hkey, hnil] at this
          simp at this
          omega
        · rw [hkey, resize_of_le hlen]
          exact List.take_prefix _ _
      | none =>
        rw [hl] at h
        simp only [] at h
        cases hp : UTF8Util.PrevCharLength pre with
        | error err => rw [hp] at h; cases h
        | ok n =>
          rw [hp] at h
          simp only [] at h
          obtain ⟨h₁, h₂, h₃⟩ := ih (resize key len) (len - n) e
            (by rw [length_resize]; omega) h
          refine ⟨h₁, h₂, h₃.trans ?_⟩
          rw [resize_of_le hlen]
          exact List.take_prefix _ _
    · simp [MatchPrefix.loop, hpos] at h

/-- Whatever bytes lie before the candidate buffer, an entry returned by `MatchPrefix` is
an entry of the store and its key is a non-empty prefix of the text. -/
theorem MatchPrefix_sound (S : StdSort) (pre : List Nat) (d : TextDict) (word : List Nat)
    (e : DictEntry) (h : (MatchPrefix S pre d word).1 = .ok (some e)) :
    e ∈ d.lexicon ∧ e.key ≠ [] ∧ e.key <+: word := by
  unfold MatchPrefix at h
  simp only [] at h
  cases ht : UTF8Util.Truncate word (SortLexicon S d).maxLength with
  | error err => rw [ht] at h; cases h
  | ok key =>
    rw [ht] at h
    obtain ⟨h₁, h₂, h₃⟩ := MatchPrefix.loop_sound pre _ _ _ _ e (Nat.le_refl _) h
    refine ⟨(SortLexicon_perm S d).subset h₁, h₂, h₃.trans ?_⟩
    unfold UTF8Util.Truncate at ht
    cases hg : UTF8Util.Truncate.go word 0 (SortLexicon S d).maxLength with
    | error err => rw [hg] at ht; cases ht
    | ok k =>
      rw [hg] at ht
      simp only [Except.ok.injEq] at ht
      rw [← ht]
      exact List.take_prefix _ _

end TextDict

/-! ## The bounds on the number of rounds are never reached

Each loop of the embedding carries a bound on its number of rounds.  The results below
show that the bound chosen by the caller is immaterial: any larger bound gives the same
outcome. -/

namespace TextDict

theorem MatchPrefix_loop_bound (pre : List Nat) (lexicon : List DictEntry) :
    ∀ (fuel fuel' : Nat) (key : List Nat) (len : Nat), len ≤ fuel → len ≤ fuel' →
      MatchPrefix.loop pre lexicon fuel key len = MatchPrefix.loop pre lexicon fuel' key len := by
  intro fuel
  induction fuel with
  | zero =>
    intro fuel' key len h _
    have hlen : len = 0 := by omega
    subst hlen
    cases fuel' <;> simp [MatchPrefix.loop]
  | succ fuel ih =>
    intro fuel' key len h h'
    cases fuel' with
    | zero =>
      have hlen : len = 0 := by omega
      subst hlen
      simp [MatchPrefix.loop]
    | succ fuel' =>
      simp only [MatchPrefix.loop]
      by_cases hpos : len > 0
      · simp only [if_pos hpos]
        cases lookup lexicon (resize key len) with
        | some found => rfl
        | none =>
          cases hp : UTF8Util.PrevCharLength pre with
          | error e => rfl
          | ok n =>
            have := PrevCharLength_pos hp
            exact ih fuel' _ _ (by omega) (by omega)
      · simp only [if_neg hpos]

theorem MatchAllPrefixes_loop_bound (pre : List Nat) (lexicon : List DictEntry) :
    ∀ (fuel fuel' : Nat) (key : List Nat) (len : Nat) (acc : List DictEntry),
      len ≤ fuel → len ≤ fuel' →
      MatchAllPrefixes.loop pre lexicon fuel key len acc
        = MatchAllPrefixes.loop pre lexicon fuel' key len acc := by
  intro fuel
  induction fuel with
  | zero =>
    intro fuel' key len acc h _
    have hlen : len = 0 := by omega
    subst hlen
    cases fuel' <;> simp [MatchAllPrefixes.loop]
  | succ fuel ih =>
    intro fuel' key len acc h h'
    cases fuel' with
    | zero =>
      have hlen : len = 0 := by omega
      subst hlen
      simp [MatchAllPrefixes.loop]
    | succ fuel' =>
      simp only [MatchAllPrefixes.loop]
      by_cases hpos : len > 0
      · simp only [if_pos hpos]
        cases hp : UTF8Util.PrevCharLength pre with
        | error e => rfl
        | ok n =>
          have := PrevCharLength_pos hp
          exact ih fuel' _ _ _ (by omega) (by omega)
      · simp only [if_neg hpos]

end TextDict

theorem NextChar_length {str buff : List Nat} (h : UTF8Util.NextChar str = .ok buff) :
    buff.length < str.length := by
  unfold UTF8Util.NextChar at h
  cases hn : UTF8Util.NextCharLength (str.headD 0) with
  | error e => rw [hn] at h; cases h
  | ok n =>
    rw [hn] at h
    simp only [] at h
    have hpos := UTF8Util.NextCharLength_pos hn
    by_cases hle : n ≤ str.length
    · rw [if_pos hle] at h
      simp only [Except.ok.injEq] at h
      rw [← h, List.length_drop]
      omega
    · rw [if_neg hle] at h; cases h

theorem ParseKeyValues_loop_bound :
    ∀ (fuel fuel' : Nat) (pbuff : List Nat) (values : List (List Nat)),
      pbuff.length < fuel → pbuff.length < fuel' →
      ParseKeyValues.loop fuel pbuff values = ParseKeyValues.loop fuel' pbuff values := by
  intro fuel
  induction fuel with
  | zero => intro fuel' pbuff values h _; omega
  | succ fuel ih =>
    intro fuel' pbuff values h h'
    cases fuel' with
    | zero => omega
    | succ fuel' =>
      simp only [ParseKeyValues.loop]
      by_cases hend : UTF8Util.IsLineEndingOrFileEnding (pbuff.headD 0) = true
      · simp only [if_pos hend]
      · simp only [if_neg hend]
        cases hn : UTF8Util.NextChar pbuff with
        | error e => rfl
        | ok buff =>
          simp only []
          have hlt := NextChar_length hn
          cases UTF8Util.FindNextInline buff 32 with
          | error e => rfl
          | ok length =>
            simp only []
            exact ih fuel' _ _ (by rw [List.length_drop]; omega)
              (by rw [List.length_drop]; omega)

theorem fgets.read_length :
    ∀ (n : Nat) (fp : List Nat), (fgets.read n fp).2.length ≤ fp.length := by
  intro n
  induction n with
  | zero => intro fp; simp [fgets.read]
  | succ n ih =>
    intro fp
    cases fp with
    | nil => simp [fgets.read]
    | cons b rest =>
      simp only [fgets.read]
      by_cases hb : b = 10
      · simp [hb]
      · simp only [if_neg hb, List.length_cons]
        have := ih rest
        omega

theorem fgets_length {fp buff rest : List Nat}
    (h : fgets ENTRY_BUFF_SIZE fp = some (buff, rest)) : rest.length < fp.length := by
  unfold fgets at h
  cases fp with
  | nil => simp at h
  | cons b tail =>
    simp only [reduceCtorEq, if_false, Option.some.injEq, ENTRY_BUFF_SIZE] at h
    have hread : (fgets.read (126 + 1) (b :: tail)).2 = rest := by
      have := congrArg Prod.snd h
      simpa using this
    rw [← hread]
    simp only [fgets.read]
    by_cases hb : b = 10
    · simp [hb]
    · simp only [if_neg hb, List.length_cons]
      have := fgets.read_length 126 tail
      omega

namespace TextDict

theorem LoadFromFile_loop_bound :
    ∀ (fuel fuel' : Nat) (fp : List Nat) (d : TextDict), fp.length ≤ fuel → fp.length ≤ fuel' →
      LoadFromFile.loop fuel fp d = LoadFromFile.loop fuel' fp d := by
  intro fuel
  induction fuel with
  | zero =>
    intro fuel' fp d h _
    have hfp : fp = [] := List.length_eq_zero.mp (by omega)
    subst hfp
    cases fuel' <;> simp [LoadFromFile.loop, fgets]
  | succ fuel ih =>
    intro fuel' fp d h h'
    cases fuel' with
    | zero =>
      have hfp : fp = [] := List.length_eq_zero.mp (by omega)
      subst hfp
      simp [LoadFromFile.loop, fgets]
    | succ fuel' =>
      simp only [LoadFromFile.loop]
      cases hf : fgets ENTRY_BUFF_SIZE fp with
      | none => rfl
      | some p =>
        obtain ⟨buff, rest⟩ := p
        simp only []
        have hlt := fgets_length hf
        cases ParseKeyValues buff with
        | error e => rfl
        | ok entry =>
          simp only []
          exact ih fuel' _ _ (by omega) (by omega)

end TextDict

/-! ## Reachable states -/

namespace TextDict

theorem MatchPrefix_state (S : StdSort) (pre : List Nat) (d : TextDict) (word : List Nat) :
    (MatchPrefix S pre d word).2 = SortLexicon S d := by
  unfold MatchPrefix
  simp only []
  cases UTF8Util.Truncate word (SortLexicon S d).maxLength <;> rfl

theorem MatchAllPrefixes_state (S : StdSort) (pre : List Nat) (d : TextDict)
    (word : List Nat) : (MatchAllPrefixes S pre d word).2 = SortLexicon S d := by
  unfold MatchAllPrefixes
  simp only []
  cases UTF8Util.Truncate word (SortLexicon S d).maxLength <;> rfl

theorem LoadFromFile.loop_invariant (P : TextDict → Prop)
    (hadd : ∀ d entry, P d → P (AddKeyValue d entry)) (fuel : Nat) :
    ∀ (fp : List Nat) (d : TextDict), P d → P (LoadFromFile.loop fuel fp d).2 := by
  induction fuel with
  | zero => intro fp d h; exact h
  | succ fuel ih =>
    intro fp d h
    simp only [LoadFromFile.loop]
    cases fgets ENTRY_BUFF_SIZE fp with
    | none => exact h
    | some p =>
      obtain ⟨buff, fp'⟩ := p
      simp only []
      cases ParseKeyValues buff with
      | error e => exact h
      | ok entry => exact ih fp' _ (hadd d entry h)

theorem LoadFromFile_invariant (P : TextDict → Prop)
    (hadd : ∀ d entry, P d → P (AddKeyValue d entry))
    (S : StdSort) (hsort : ∀ d, P d → P (SortLexicon S d))
    (d : TextDict) (fp : List Nat) (h : P d) : P (LoadFromFile S d fp).2 := by
  have hloop := LoadFromFile.loop_invariant P hadd (UTF8Util.SkipUtf8Bom fp).length
    (UTF8Util.SkipUtf8Bom fp) d h
  unfold LoadFromFile
  simp only []
  cases hl : LoadFromFile.loop (UTF8Util.SkipUtf8Bom fp).length (UTF8Util.SkipUtf8Bom fp) d with
  | mk r d' =>
    rw [hl] at hloop
    cases r with
    | error e => exact hloop
    | ok u => exact hsort _ hloop

theorem Reachable_invariant {S : StdSort} {maxLength₀ : Nat} (P : TextDict → Prop)
    (hnew : P (new maxLength₀))
    (hadd : ∀ d entry, P d → P (AddKeyValue d entry))
    (hsort : ∀ d, P d → P (SortLexicon S d))
    {d : TextDict} (h : Reachable S maxLength₀ d) : P d := by
  induction h with
  | new => exact hnew
  | AddKeyValue entry _ ih => exact hadd _ entry ih
  | LoadFromFile fp _ ih => exact LoadFromFile_invariant P hadd S hsort _ fp ih
  | SortLexicon _ ih => exact hsort _ ih
  | GetLexicon _ ih => exact hsort _ ih
  | MatchPrefix pre word _ ih => rw [MatchPrefix_state]; exact hsort _ ih
  | MatchAllPrefixes pre word _ ih => rw [MatchAllPrefixes_state]; exact hsort _ ih

theorem Reachable_consistent {S : StdSort} {maxLength₀ : Nat} {d : TextDict}
    (h : Reachable S maxLength₀ d) : d.Consistent :=
  Reachable_invariant Consistent (Consistent_new maxLength₀)
    (fun _ entry hd => Consistent_AddKeyValue hd entry)
    (fun _ hd => Consistent_SortLexicon S hd) h

end TextDict

/-! ## The maximum key length -/

theorem maxKeyLength_append (l : List DictEntry) (e : DictEntry) :
    maxKeyLength (l ++ [e]) = max e.key.length (maxKeyLength l) := by
  induction l with
  | nil => simp [maxKeyLength]
  | cons x xs ih =>
    simp only [maxKeyLength, List.cons_append, List.foldr_cons] at ih ⊢
    rw [ih]
    omega

theorem maxKeyLength_perm {l₁ l₂ : List DictEntry} (h : l₁.Perm l₂) :
    maxKeyLength l₁ = maxKeyLength l₂ := by
  unfold maxKeyLength
  apply List.Perm.foldr_eq' h
  intro x _ y _ z
  omega

theorem maxKeyLength_ge {l : List DictEntry} {e : DictEntry} (he : e ∈ l) :
    e.key.length ≤ maxKeyLength l := by
  induction l with
  | nil => cases he
  | cons x xs ih =>
    simp only [maxKeyLength, List.foldr_cons]
    rcases List.mem_cons.mp he with h | h
    · subst h; omega
    · have := ih h
      simp only [maxKeyLength] at this
      omega

namespace TextDict

/-- In every reachable state the member `maxLength` is the larger of the value it had
after construction and the maximum byte length of the keys in the lexicon. -/
theorem Reachable_maxLength_eq {S : StdSort} {maxLength₀ : Nat} {d : TextDict}
    (h : Reachable S maxLength₀ d) :
    d.KeyMaxLength = max maxLength₀ (maxKeyLength d.lexicon) := by
  refine Reachable_invariant
    (fun d => d.KeyMaxLength = max maxLength₀ (maxKeyLength d.lexicon)) ?_ ?_ ?_ h
  · simp [KeyMaxLength, new, maxKeyLength]
  · intro d entry hd
    simp only [KeyMaxLength, AddKeyValue] at hd ⊢
    rw [maxKeyLength_append, hd]
    omega
  · intro d hd
    simp only [KeyMaxLength] at hd ⊢
    rw [SortLexicon_maxLength, maxKeyLength_perm (SortLexicon_perm S d)]
    exact hd

/-- When the member `maxLength` is `0` after construction, `KeyMaxLength()` is in every
reachable state the maximum byte length of the keys inserted so far. -/
theorem Reachable_maxLength_of_zero {S : StdSort} {d : TextDict}
    (h : Reachable S 0 d) : d.KeyMaxLength = maxKeyLength d.lexicon := by
  rw [Reachable_maxLength_eq h]
  omega

end TextDict

/-! ## The candidates of the search loops -/

namespace TextDict

theorem PrevCharLength_range {pre : List Nat} {n : Nat}
    (h : UTF8Util.PrevCharLength pre = .ok n) : n = 1 ∨ n = 2 ∨ n = 3 ∨ n = 4 := by
  unfold UTF8Util.PrevCharLength at h
  split_ifs at h <;> cases h <;> simp

theorem PrevCharLength_error {pre : List Nat} {e : Error}
    (h : UTF8Util.PrevCharLength pre = .error e) : e = .EncodingError := by
  unfold UTF8Util.PrevCharLength at h
  split_ifs at h
  cases h
  rfl

theorem candidates.loop_tried (pre : List Nat) :
    ∀ (fuel : Nat) (key : List Nat) (len : Nat) (tried : List (List Nat)),
      candidates.loop pre fuel key len tried
        = Except.map (fun cs => tried ++ cs) (candidates.loop pre fuel key len []) := by
  intro fuel
  induction fuel with
  | zero => intro key len tried; simp [candidates.loop, Except.map]
  | succ fuel ih =>
    intro key len tried
    simp only [candidates.loop]
    by_cases hpos : len > 0
    · simp only [if_pos hpos]
      cases hp : UTF8Util.PrevCharLength pre with
      | error e => rfl
      | ok n =>
        simp only []
        rw [ih _ _ (tried ++ [resize key len]), ih _ _ ([] ++ [resize key len])]
        cases candidates.loop pre fuel (resize key len) (len - n) [] with
        | error e => rfl
        | ok cs => simp [Except.map]
    · simp [if_neg hpos, Except.map]

/-- The loop of `MatchAllPrefixes` returns the hits of the lookups of the candidates, in
the order of the candidates. -/
theorem MatchAllPrefixes_loop_eq_candidates (pre : List Nat) (lexicon : List DictEntry) :
    ∀ (fuel : Nat) (key : List Nat) (len : Nat) (acc : List DictEntry),
      MatchAllPrefixes.loop pre lexicon fuel key len acc
        = Except.map (fun cs => acc ++ cs.filterMap (lookup lexicon))
            (candidates.loop pre fuel key len []) := by
  intro fuel
  induction fuel with
  | zero => intro key len acc; simp [MatchAllPrefixes.loop, candidates.loop, Except.map]
  | succ fuel ih =>
    intro key len acc
    simp only [MatchAllPrefixes.loop, candidates.loop]
    by_cases hpos : len > 0
    · simp only [if_pos hpos]
      cases hp : UTF8Util.PrevCharLength pre with
      | error e => rfl
      | ok n =>
        simp only []
        rw [ih, candidates.loop_tried pre fuel _ _ ([] ++ [resize key len])]
        cases candidates.loop pre fuel (resize key len) (len - n) [] with
        | error e => rfl
        | ok cs =>
          cases hl : lookup lexicon (resize key len) with
          | none => simp [Except.map, hl]
          | some found => simp [Except.map, hl]
    · simp [if_neg hpos, Except.map]

/-- When the loop of the candidates runs through, the loop of `MatchPrefix` returns the
first hit of the lookups of the candidates. -/
theorem MatchPrefix_loop_eq_candidates (pre : List Nat) (lexicon : List DictEntry) :
    ∀ (fuel : Nat) (key : List Nat) (len : Nat) (cs : List (List Nat)),
      candidates.loop pre fuel key len [] = .ok cs →
      MatchPrefix.loop pre lexicon fuel key len
        = .ok ((cs.filterMap (lookup lexicon)).head?) := by
  intro fuel
  induction fuel with
  | zero =>
    intro key len cs h
    simp only [candidates.loop, Except.ok.injEq] at h
    subst h
    rfl
  | succ fuel ih =>
    intro key len cs h
    simp only [MatchPrefix.loop, candidates.loop] at h ⊢
    by_cases hpos : len > 0
    · simp only [if_pos hpos] at h ⊢
      cases hp : UTF8Util.PrevCharLength pre with
      | error e => rw [hp] at h; cases h
      | ok n =>
        rw [hp] at h
        simp only [] at h
        rw [candidates.loop_tried pre fuel _ _ ([] ++ [resize key len])] at h
        cases hc : candidates.loop pre fuel (resize key len) (len - n) [] with
        | error e => rw [hc] at h; cases h
        | ok cs' =>
          rw [hc] at h
          simp only [Except.map, List.nil_append, List.singleton_append,
            Except.ok.injEq] at h
          subst h
          cases hl : lookup lexicon (resize key len) with
          | none =>
            simp only [List.filterMap_cons, hl]
            exact ih _ _ cs' hc
          | some found => simp [List.filterMap_cons, hl]
    · simp only [if_neg hpos, Except.ok.injEq] at h ⊢
      subst h
      rfl

theorem MatchAllPrefixes_eq_candidates (S : StdSort) (pre : List Nat) (d : TextDict)
    (word : List Nat) :
    (MatchAllPrefixes S pre d word).1
      = Except.map (fun cs => cs.filterMap (lookup (SortLexicon S d).lexicon))
          (candidates pre d word) := by
  unfold MatchAllPrefixes candidates
  simp only [SortLexicon_maxLength]
  cases UTF8Util.Truncate word d.maxLength with
  | error e => rfl
  | ok key =>
    simp only []
    rw [MatchAllPrefixes_loop_eq_candidates]
    simp

/-- Whenever `MatchAllPrefixes` returns, `MatchPrefix` (run with the same bytes before
the candidate buffer) returns the first element of its result, or no match when the
result is empty. -/
theorem MatchPrefix_eq_head (S : StdSort) (pre : List Nat) (d : TextDict) (word : List Nat)
    (r : List DictEntry) (h : (MatchAllPrefixes S pre d word).1 = .ok r) :
    (MatchPrefix S pre d word).1 = .ok r.head? := by
  unfold MatchAllPrefixes at h
  unfold MatchPrefix
  simp only [] at h ⊢
  cases ht : UTF8Util.Truncate word (SortLexicon S d).maxLength with
  | error e => rw [ht] at h; cases h
  | ok key =>
    rw [ht] at h
    simp only [] at h ⊢
    rw [MatchAllPrefixes_loop_eq_candidates] at h
    cases hc : candidates.loop pre key.length key key.length [] with
    | error e => rw [hc] at h; cases h
    | ok cs =>
      rw [hc] at h
      simp only [Except.map, List.nil_append, Except.ok.injEq] at h
      rw [MatchPrefix_loop_eq_candidates pre _ _ _ _ cs hc, h]

end TextDict

/-! ## The text written by the serializer -/

namespace TextDict

theorem c_str_of_no_nul (str : List Nat) (h : ∀ b ∈ str, b ≠ 0) : c_str str = str := by
  unfold c_str
  rw [List.takeWhile_eq_self_iff]
  intro b hb
  simpa using h b hb

theorem SerializeToFile.values_of_no_nul (vs : List (List Nat))
    (h : ∀ v ∈ vs, ∀ b ∈ v, b ≠ 0) :
    SerializeToFile.values vs = [32].intercalate vs := by
  induction vs with
  | nil => rfl
  | cons v rest ih =>
    have hv := c_str_of_no_nul v (h v (List.mem_cons_self _ _))
    have hrest := ih (fun x hx => h x (List.mem_cons_of_mem _ hx))
    cases rest with
    | nil => simp [SerializeToFile.values, intercalate_singleton, hv]
    | cons w ws =>
      rw [intercalate_cons_cons, ← hrest]
      simp [SerializeToFile.values, hv]

theorem SerializeToFile.entries_of_no_nul (l : List DictEntry)
    (h : ∀ e ∈ l, (∀ b ∈ e.key, b ≠ 0) ∧ ∀ v ∈ e.values, ∀ b ∈ v, b ≠ 0) :
    SerializeToFile.entries l = (l.map DictEntry.line).flatten := by
  induction l with
  | nil => rfl
  | cons e rest ih =>
    obtain ⟨hk, hv⟩ := h e (List.mem_cons_self _ _)
    rw [SerializeToFile.entries, ih (fun x hx => h x (List.mem_cons_of_mem _ hx)),
      c_str_of_no_nul e.key hk, SerializeToFile.values_of_no_nul e.values hv]
    simp [DictEntry.line]

/-- Two sequences of entries in ascending key order that are rearrangements of each other
are equal, when entries of the sequence that have the same key are the same entry. -/
theorem ascending_perm_unique {l₁ l₂ : List DictEntry} (h₁ : Ascending l₁) (h₂ : Ascending l₂)
    (hp : l₁.Perm l₂) (hkey : ∀ a ∈ l₁, ∀ b ∈ l₁, a.key = b.key → a = b) : l₁ = l₂ := by
  refine List.Perm.eq_of_sorted ?_ h₁ h₂ hp
  intro a b ha hb hab hba
  apply hkey a ha b (hp.symm.subset hb)
  simp only [DictEntry.PtrCmp] at hab hba
  by_contra hne
  have := strLt_of_not_ge hba hne
  rw [hab] at this
  cases this

end TextDict

/-! ## The entries returned by the parser -/

theorem ParseKeyValues.loop_extends :
    ∀ (fuel : Nat) (pbuff : List Nat) (values result : List (List Nat)),
      ParseKeyValues.loop fuel pbuff values = .ok result → values <+: result := by
  intro fuel
  induction fuel with
  | zero =>
    intro pbuff values result h
    simp only [ParseKeyValues.loop, Except.ok.injEq] at h
    rw [h]
  | succ fuel ih =>
    intro pbuff values result h
    simp only [ParseKeyValues.loop] at h
    by_cases hend : UTF8Util.IsLineEndingOrFileEnding (pbuff.headD 0) = true
    · rw [if_pos hend] at h
      simp only [Except.ok.injEq] at h
      rw [h]
    · rw [if_neg hend] at h
      cases hn : UTF8Util.NextChar pbuff with
      | error e => rw [hn] at h; cases h
      | ok buff =>
        rw [hn] at h
        simp only [] at h
        cases hf : UTF8Util.FindNextInline buff 32 with
        | error e => rw [hf] at h; cases h
        | ok length =>
          rw [hf] at h
          simp only [] at h
          exact (List.prefix_append _ _).trans (ih _ _ _ h)

theorem ParseKeyValues.loop_nonempty (fuel : Nat) (pbuff : List Nat)
    (result : List (List Nat))
    (hstart : UTF8Util.IsLineEndingOrFileEnding (pbuff.headD 0) = false)
    (h : ParseKeyValues.loop (fuel + 1) pbuff [] = .ok result) : result ≠ [] := by
  simp only [ParseKeyValues.loop, hstart, Bool.false_eq_true, if_false] at h
  cases hn : UTF8Util.NextChar pbuff with
  | error e => rw [hn] at h; cases h
  | ok buff =>
    rw [hn] at h
    simp only [] at h
    cases hf : UTF8Util.FindNextInline buff 32 with
    | error e => rw [hf] at h; cases h
    | ok length =>
      rw [hf] at h
      simp only [List.nil_append] at h
      have := ParseKeyValues.loop_extends _ _ _ _ h
      intro hnil
      rw [hnil] at this
      simp at this

theorem FindNextInline_zero_iff (b : Nat) (rest : List Nat) (ch : Nat) :
    UTF8Util.FindNextInline (b :: rest) ch = .ok 0 ↔
      (UTF8Util.IsLineEndingOrFileEnding b = true ∨ b = ch) := by
  simp only [UTF8Util.FindNextInline, UTF8Util.FindNextInline.go, Bool.or_eq_true,
    beq_iff_eq]
  constructor
  · intro h
    by_contra hno
    rw [if_neg hno] at h
    cases hn : UTF8Util.NextCharLength b with
    | error e => rw [hn] at h; cases h
    | ok n =>
      rw [hn] at h
      simp only [] at h
      cases hg : UTF8Util.FindNextInline.go ch rest (n - 1) with
      | error e => rw [hg] at h; cases h
      | ok k =>
        rw [hg] at h
        simp at h
  · intro h
    rw [if_pos h]

namespace TextDict

theorem SortLexicon_foldl_spec (S : StdSort) (entries : List DictEntry) (maxLength₀ : Nat) :
    Ascending (SortLexicon S (entries.foldl AddKeyValue (new maxLength₀))).lexicon ∧
    (SortLexicon S (entries.foldl AddKeyValue (new maxLength₀))).lexicon.Perm entries := by
  cases entries with
  | nil => exact ⟨List.Pairwise.nil, List.Perm.refl _⟩
  | cons e es =>
    have hs := foldl_AddKeyValue_sorted (e :: es) (new maxLength₀) (by simp)
    have hl := foldl_AddKeyValue_lexicon (e :: es) (new maxLength₀)
    simp only [SortLexicon, hs, Bool.not_false, if_true, hl]
    exact ⟨S.ascending _, by simpa [new] using S.perm (e :: es)⟩

end TextDict

namespace TextDict

theorem candidates.loop_of_step {pre : List Nat} {n : Nat}
    (hp : UTF8Util.PrevCharLength pre = .ok n) :
    ∀ (fuel : Nat) (key : List Nat) (len : Nat) (tried : List (List Nat)),
      candidates.loop pre fuel key len tried
        = .ok (candidatesWithStep n fuel key len tried) := by
  intro fuel
  induction fuel with
  | zero => intro key len tried; rfl
  | succ fuel ih =>
    intro key len tried
    simp only [candidates.loop, candidatesWithStep, hp]
    by_cases hpos : len > 0
    · simp only [if_pos hpos]
      exact ih _ _ _
    · simp only [if_neg hpos]

theorem candidates_of_step {pre : List Nat} {n : Nat}
    (hp : UTF8Util.PrevCharLength pre = .ok n) (d : TextDict) (word : List Nat) :
    candidates pre d word = candidatesOfStep n d word := by
  unfold candidates candidatesOfStep
  cases UTF8Util.Truncate word d.maxLength with
  | error e => rfl
  | ok key => exact candidates.loop_of_step hp _ _ _ _

theorem candidates_of_error {pre : List Nat} {e : Error}
    (hp : UTF8Util.PrevCharLength pre = .error e) (d : TextDict) (word key : List Nat)
    (ht : UTF8Util.Truncate word d.maxLength = .ok key) (hkey : key ≠ []) :
    candidates pre d word = .error e := by
  unfold candidates
  rw [ht]
  simp only []
  cases key with
  | nil => exact absurd rfl hkey
  | cons b rest => simp [candidates.loop, hp]

theorem Truncate_zero (word : List Nat) (hword : UTF8Util.ValidUTF8 word) :
    UTF8Util.Truncate word 0 = .ok [] := by
  obtain ⟨n, h₁, _, h₃, _, _⟩ := UTF8Util.Truncate_spec word 0 hword
  have hn : n = 0 := by omega
  subst hn
  simpa using h₁

theorem Truncate_whole (word : List Nat) (maxLength : Nat) (hword : UTF8Util.ValidUTF8 word)
    (hlen : word.length ≤ maxLength) : UTF8Util.Truncate word maxLength = .ok word := by
  obtain ⟨n, h₁, h₂, _, _, h₅⟩ := UTF8Util.Truncate_spec word maxLength hword
  have hn : word.length ≤ n := h₅ word (List.prefix_refl _) hword hlen
  rw [h₁, List.take_of_length_le hn]

end TextDict

/-! ## The shrink step of the search loops

`PrevCharLength` is called on `keyPtr = entry->key.c_str()`, the start of the candidate
key.  The step of the loops is therefore read off the bytes stored before the buffer and
not off the last character of the candidate.  The evaluations below run the loops with
the three bytes `E4 B8 AD` (one three-byte character) stored before the buffer, which
makes every step three bytes long, and with a byte before the buffer that is no leading
byte. -/

/-- Claim C1 is broken by the code: with the entries `a ↦ [X]`, `ab ↦ [Y]`, `abcd ↦ [Z]`
and the bytes `E4 B8 AD` stored before the candidate buffer, `MatchPrefix("abcx")`
returns the entry for `a`, although the entry for `ab` is in the store and its key is a
longer prefix of the text: the candidates tried are `abcx` and `a` only. -/
theorem MatchPrefix_returns_shorter_match :
    (TextDict.MatchPrefix insertionStdSort [0xAD, 0xB8, 0xE4]
      ((TextDict.new 0).AddKeyValue ⟨[97], [[88]]⟩ |>.AddKeyValue ⟨[97, 98], [[89]]⟩
        |>.AddKeyValue ⟨[97, 98, 99, 100], [[90]]⟩)
      [97, 98, 99, 120]).1 = .ok (some ⟨[97], [[88]]⟩) ∧
    (⟨[97, 98], [[89]]⟩ : DictEntry) ∈
      ((TextDict.new 0).AddKeyValue ⟨[97], [[88]]⟩ |>.AddKeyValue ⟨[97, 98], [[89]]⟩
        |>.AddKeyValue ⟨[97, 98, 99, 100], [[90]]⟩).lexicon ∧
    [97, 98] <+: [97, 98, 99, 120] ∧
    UTF8Util.ValidUTF8 [97, 98, 99, 120] := by
  decide

/-- Claim C2 is broken by the code: with the entries `a ↦ [X]`, `ab ↦ [Y]` and the bytes
`E4 B8 AD` stored before the candidate buffer, `MatchPrefix("ac")` returns no match
although the key `a` is a non-empty prefix of the text; with a byte before the buffer that
is no leading byte the call throws the encoding error and returns nothing at all. -/
theorem MatchPrefix_no_match_despite_prefix :
    (TextDict.MatchPrefix insertionStdSort [0xAD, 0xB8, 0xE4]
      ((TextDict.new 0).AddKeyValue ⟨[97], [[88]]⟩ |>.AddKeyValue ⟨[97, 98], [[89]]⟩)
      [97, 99]).1 = .ok none ∧
    (TextDict.MatchPrefix insertionStdSort [0xBF, 0xBF, 0xBF, 0xBF]
      ((TextDict.new 0).AddKeyValue ⟨[97], [[88]]⟩ |>.AddKeyValue ⟨[97, 98], [[89]]⟩)
      [97, 99]).1 = .error .EncodingError ∧
    (⟨[97], [[88]]⟩ : DictEntry) ∈
      ((TextDict.new 0).AddKeyValue ⟨[97], [[88]]⟩ |>.AddKeyValue ⟨[97, 98], [[89]]⟩).lexicon ∧
    [97] <+: [97, 99] := by
  decide

/-- Claim C3 is broken by the code: with the entries `a ↦ [X]`, `ab ↦ [Y]` and the bytes
`E4 B8 AD` stored before the candidate buffer, `MatchAllPrefixes("abc")` returns the
entry for `ab` alone; the entry for `a`, whose key is a prefix of the text, is missing. -/
theorem MatchAllPrefixes_misses_prefix :
    (TextDict.MatchAllPrefixes insertionStdSort [0xAD, 0xB8, 0xE4]
      ((TextDict.new 0).AddKeyValue ⟨[97], [[88]]⟩ |>.AddKeyValue ⟨[97, 98], [[89]]⟩)
      [97, 98, 99]).1 = .ok [⟨[97, 98], [[89]]⟩] ∧
    (⟨[97], [[88]]⟩ : DictEntry) ∈
      ((TextDict.new 0).AddKeyValue ⟨[97], [[88]]⟩ |>.AddKeyValue ⟨[97, 98], [[89]]⟩).lexicon ∧
    [97] <+: [97, 98, 99] := by
  decide

/-! ## The order of the matches -/

/-- Claim C4. All-prefixes ordering: for every store, every text and whatever bytes lie
before the candidate buffer, the sequence returned by `MatchAllPrefixes` is in strictly
decreasing order of key byte length (longest first). -/
theorem MatchAllPrefixes_longest_first (S : StdSort) (pre : List Nat) (d : TextDict)
    (word : List Nat) (r : List DictEntry)
    (h : (TextDict.MatchAllPrefixes S pre d word).1 = .ok r) :
    r.Pairwise (fun a b => b.key.length < a.key.length) := by
  unfold TextDict.MatchAllPrefixes at h
  simp only [] at h
  cases ht : UTF8Util.Truncate word (TextDict.SortLexicon S d).maxLength with
  | error e => rw [ht] at h; cases h
  | ok key =>
    rw [ht] at h
    exact TextDict.MatchAllPrefixes.loop_decreasing pre _ _ _ _ [] r h List.Pairwise.nil
      (fun e he => absurd he (List.not_mem_nil e))

/-- With the entries `ab ↦ [Y]` and `a ↦ [X]` (inserted in this order) and a one-byte
character before the candidate buffer, `MatchAllPrefixes("abc")` returns the entries for
`ab` and `a`, in that order. -/
theorem MatchAllPrefixes_longest_first_witness :
    (TextDict.MatchAllPrefixes insertionStdSort [0]
      ((TextDict.new 0).AddKeyValue ⟨[97, 98], [[89]]⟩ |>.AddKeyValue ⟨[97], [[88]]⟩)
      [97, 98, 99]).1 = .ok [⟨[97, 98], [[89]]⟩, ⟨[97], [[88]]⟩] ∧
    List.Pairwise (fun a b : DictEntry => b.key.length < a.key.length)
      [⟨[97, 98], [[89]]⟩, ⟨[97], [[88]]⟩] :=
  ⟨by decide,
   MatchAllPrefixes_longest_first insertionStdSort [0]
     ((TextDict.new 0).AddKeyValue ⟨[97, 98], [[89]]⟩ |>.AddKeyValue ⟨[97], [[88]]⟩)
     [97, 98, 99] _ (by decide)⟩

/-! ## The round trip of a store -/

/-- Claim C5, as stated, fails on well-formed stores (non-empty keys, non-empty lists of
values): a value with a space comes back as two values; a key with a tab comes back cut
at the tab; a key that begins with a byte-order mark comes back without the mark; two
entries with the same key come back in the other order under a sort that does not keep
the order of equal keys. -/
theorem roundtrip_fails_outside_format :
    -- the entry `a ↦ ["x y"]`
    (TextDict.GetLexicon insertionStdSort
      (TextDict.LoadFromFile insertionStdSort (TextDict.new 0)
        (TextDict.SerializeToFile insertionStdSort
          ((TextDict.new 0).AddKeyValue ⟨[97], [[120, 32, 121]]⟩)).1).2).1
      = [⟨[97], [[120], [121]]⟩] ∧
    (TextDict.GetLexicon insertionStdSort
      ((TextDict.new 0).AddKeyValue ⟨[97], [[120, 32, 121]]⟩)).1
      = [⟨[97], [[120, 32, 121]]⟩] ∧
    -- the entry `a<TAB>b ↦ ["X"]`
    (TextDict.GetLexicon insertionStdSort
      (TextDict.LoadFromFile insertionStdSort (TextDict.new 0)
        (TextDict.SerializeToFile insertionStdSort
          ((TextDict.new 0).AddKeyValue ⟨[97, 9, 98], [[88]]⟩)).1).2).1
      = [⟨[97], [[98, 9, 88]]⟩] ∧
    -- the entry `<BOM>a ↦ ["X"]`
    (TextDict.GetLexicon insertionStdSort
      (TextDict.LoadFromFile insertionStdSort (TextDict.new 0)
        (TextDict.SerializeToFile insertionStdSort
          ((TextDict.new 0).AddKeyValue ⟨[0xEF, 0xBB, 0xBF, 97], [[88]]⟩)).1).2).1
      = [⟨[97], [[88]]⟩] ∧
    -- the entries `a ↦ ["X"]` and `a ↦ ["Y"]`
    (TextDict.GetLexicon reversingStdSort
      (TextDict.LoadFromFile reversingStdSort (TextDict.new 0)
        (TextDict.SerializeToFile reversingStdSort
          ((TextDict.new 0).AddKeyValue ⟨[97], [[88]]⟩
            |>.AddKeyValue ⟨[97], [[89]]⟩)).1).2).1
      = [⟨[97], [[88]]⟩, ⟨[97], [[89]]⟩] ∧
    (TextDict.GetLexicon reversingStdSort
      ((TextDict.new 0).AddKeyValue ⟨[97], [[88]]⟩ |>.AddKeyValue ⟨[97], [[89]]⟩)).1
      = [⟨[97], [[89]]⟩, ⟨[97], [[88]]⟩] := by
  decide

/-- Claim C5, amended. Store round trip: let `D` be a store whose `sorted` flag is set only
if its lexicon is in ascending key order (as in every store built by the member
functions), whose keys are pairwise distinct and whose entries are all representable in
the text format (`DictEntry.Representable`).  Loading the text written by
`SerializeToFile(D)` with `LoadFromFile` into a new store succeeds and yields a store
whose `GetLexicon()` equals the `GetLexicon()` of `D`: the same entries in the same
order, each with the same values in the same order. -/
theorem SerializeToFile_LoadFromFile_roundtrip (S : StdSort) (D : TextDict) (maxLength₀ : Nat)
    (hflag : D.sorted = true → Ascending D.lexicon)
    (hkeys : (D.lexicon.map DictEntry.key).Nodup)
    (hrep : ∀ e ∈ D.lexicon, e.Representable) :
    (TextDict.LoadFromFile S (TextDict.new maxLength₀) (TextDict.SerializeToFile S D).1).1
      = .ok () ∧
    (TextDict.GetLexicon S
      (TextDict.LoadFromFile S (TextDict.new maxLength₀)
        (TextDict.SerializeToFile S D).1).2).1 = (TextDict.GetLexicon S D).1 := by
  have hperm := TextDict.SortLexicon_perm S D
  have hasc := TextDict.SortLexicon_ascending S D hflag
  have hkeys' : ((TextDict.SortLexicon S D).lexicon.map DictEntry.key).Nodup :=
    ((hperm.map DictEntry.key).nodup_iff).mpr hkeys
  have hrep' : ∀ e ∈ (TextDict.SortLexicon S D).lexicon, e.Representable :=
    fun e he => hrep e (hperm.subset he)
  have hload : TextDict.LoadFromFile S (TextDict.new maxLength₀)
      (TextDict.SerializeToFile S D).1
      = (.ok (), TextDict.SortLexicon S
          ((TextDict.SortLexicon S D).lexicon.foldl TextDict.AddKeyValue
            (TextDict.new maxLength₀))) := by
    simp only [TextDict.LoadFromFile, TextDict.SerializeToFile,
      SkipUtf8Bom_entries _ hrep',
      TextDict.LoadFromFile.loop_entries _ (TextDict.new maxLength₀) _ hrep' (le_refl _)]
  rw [hload]
  refine ⟨rfl, ?_⟩
  simp only [TextDict.GetLexicon, TextDict.SortLexicon_idem]
  exact TextDict.SortLexicon_foldl S _ maxLength₀ hasc hkeys'

/-- The store with the entries `中 ↦ [X, 之]` and `a ↦ [Y]`, inserted in this order,
survives the round trip: reloading its serialization gives the lexicon `a`, `中`. -/
theorem SerializeToFile_LoadFromFile_roundtrip_witness :
    (TextDict.LoadFromFile insertionStdSort (TextDict.new 0)
      (TextDict.SerializeToFile insertionStdSort
        ((TextDict.new 0).AddKeyValue ⟨[0xE4, 0xB8, 0xAD], [[88], [0xE4, 0xB9, 0x8B]]⟩
          |>.AddKeyValue ⟨[97], [[89]]⟩)).1).1 = .ok () ∧
    (TextDict.GetLexicon insertionStdSort
      (TextDict.LoadFromFile insertionStdSort (TextDict.new 0)
        (TextDict.SerializeToFile insertionStdSort
          ((TextDict.new 0).AddKeyValue ⟨[0xE4, 0xB8, 0xAD], [[88], [0xE4, 0xB9, 0x8B]]⟩
            |>.AddKeyValue ⟨[97], [[89]]⟩)).1).2).1
      = (TextDict.GetLexicon insertionStdSort
          ((TextDict.new 0).AddKeyValue ⟨[0xE4, 0xB8, 0xAD], [[88], [0xE4, 0xB9, 0x8B]]⟩
            |>.AddKeyValue ⟨[97], [[89]]⟩)).1 :=
  SerializeToFile_LoadFromFile_roundtrip insertionStdSort
    ((TextDict.new 0).AddKeyValue ⟨[0xE4, 0xB8, 0xAD], [[88], [0xE4, 0xB9, 0x8B]]⟩
      |>.AddKeyValue ⟨[97], [[89]]⟩) 0 (by decide) (by decide) (by decide)

/-! ## The line parser -/

/-- Claim C6. Line parsing correctness: for a key `k` without tab and without line/file
terminator and a non-empty list `vs` of values without space and without terminator, all
of them valid UTF-8, `ParseKeyValues` applied to the line made of `k`, a tab, the
values separated by single spaces and a line ending (anything that starts with a
terminator, or the end of the string) returns the entry with key `k` and values `vs`. -/
theorem ParseKeyValues_line_correct (k : List Nat) (vs : List (List Nat)) (ending : List Nat)
    (hk : UTF8Util.ValidUTF8 k)
    (hk' : ∀ b ∈ k, UTF8Util.IsLineEndingOrFileEnding b = false ∧ b ≠ 9)
    (hvs : vs ≠ [])
    (hv : ∀ v ∈ vs, UTF8Util.ValidUTF8 v ∧
      ∀ b ∈ v, UTF8Util.IsLineEndingOrFileEnding b = false ∧ b ≠ 32)
    (hend : UTF8Util.IsLineEndingOrFileEnding (ending.headD 0) = true) :
    ParseKeyValues (k ++ 9 :: ([32].intercalate vs ++ ending))
      = .ok { key := k, values := vs } :=
  ParseKeyValues_eq k vs ending hk hk' hvs hv hend

/-- The line `E4 B8 AD 09 58 20 E4 B9 8B 0D 0A` (a three-byte key, the values `X` and a
three-byte character, ending in CR LF) parses to that key with these two values. -/
theorem ParseKeyValues_line_correct_witness :
    UTF8Util.ValidUTF8 [0xE4, 0xB8, 0xAD] ∧
    ParseKeyValues [0xE4, 0xB8, 0xAD, 9, 88, 32, 0xE4, 0xB9, 0x8B, 13, 10]
      = .ok { key := [0xE4, 0xB8, 0xAD], values := [[88], [0xE4, 0xB9, 0x8B]] } :=
  ⟨by decide,
   ParseKeyValues_line_correct [0xE4, 0xB8, 0xAD] [[88], [0xE4, 0xB9, 0x8B]] [13, 10]
     (by decide) (by decide) (by decide) (by decide) (by decide)⟩

/-- Claim C7, as stated, fails: in the line `E4 0D 41 09 42 0A` a carriage return occurs
before any tab, yet `ParseKeyValues` returns an entry, because the scan steps over the
three bytes announced by the leading byte `E4`; in the line `80 0A` a newline occurs
before any tab and the failure is the encoding error, not the malformed-entry error. -/
theorem ParseKeyValues_terminator_before_tab_not_rejected :
    ParseKeyValues [0xE4, 13, 65, 9, 66, 10]
      = .ok { key := [0xE4, 13, 65], values := [[66]] } ∧
    ParseKeyValues [0x80, 10] = .error .EncodingError := by
  decide

/-- Claim C7, amended. Missing separator is rejected: for every line whose bytes before
the first line/file terminator (or before the end of the string) are valid UTF-8 and
contain no tab, `ParseKeyValues` fails with the malformed-entry error. -/
theorem ParseKeyValues_missing_separator (k ending : List Nat)
    (hk : UTF8Util.ValidUTF8 k)
    (hk' : ∀ b ∈ k, UTF8Util.IsLineEndingOrFileEnding b = false ∧ b ≠ 9)
    (hend : UTF8Util.IsLineEndingOrFileEnding (ending.headD 0) = true) :
    ParseKeyValues (k ++ ending) = .error .MalformedEntry := by
  have hfind : UTF8Util.FindNextInline (k ++ ending) 9 = .ok k.length :=
    FindNextInline.go_append 9 k ending 0 hk hk' (Or.inl hend)
  simp only [ParseKeyValues, hfind, List.drop_left, hend, if_true]

/-- The line `onlykeynovalue\n` is rejected with the malformed-entry error. -/
theorem ParseKeyValues_missing_separator_witness :
    ParseKeyValues
      [111, 110, 108, 121, 107, 101, 121, 110, 111, 118, 97, 108, 117, 101, 10]
      = .error .MalformedEntry :=
  ParseKeyValues_missing_separator
    [111, 110, 108, 121, 107, 101, 121, 110, 111, 118, 97, 108, 117, 101] [10]
    (by decide) (by decide) (by decide)

/-- Claim C8, as stated, fails: the line `key\t\n` is not rejected; `ParseKeyValues`
returns the entry with key `key` and one value, the empty string. -/
theorem ParseKeyValues_empty_value_list_accepted :
    ParseKeyValues [107, 101, 121, 9, 10] = .ok { key := [107, 101, 121], values := [[]] } := by
  decide

/-- Claim C8, amended. A line whose first tab is immediately followed by a line/file
terminator (or by the end of the string), with valid UTF-8 before the tab, is accepted:
`ParseKeyValues` returns the entry whose key is the text before the tab and whose only
value is the empty string. -/
theorem ParseKeyValues_tab_then_terminator (k ending : List Nat)
    (hk : UTF8Util.ValidUTF8 k)
    (hk' : ∀ b ∈ k, UTF8Util.IsLineEndingOrFileEnding b = false ∧ b ≠ 9)
    (hend : UTF8Util.IsLineEndingOrFileEnding (ending.headD 0) = true) :
    ParseKeyValues (k ++ 9 :: ending) = .ok { key := k, values := [[]] } := by
  have h := ParseKeyValues_eq k [[]] ending hk hk' (by simp) (by simp [UTF8Util.ValidUTF8,
    UTF8Util.ValidUTF8.scan]) hend
  simpa [intercalate_singleton] using h

/-- The line `E4 B8 AD 09 0D 0A` (a three-byte key, a tab, CR LF) yields that key with the
empty string as its only value. -/
theorem ParseKeyValues_tab_then_terminator_witness :
    ParseKeyValues [0xE4, 0xB8, 0xAD, 9, 13, 10]
      = .ok { key := [0xE4, 0xB8, 0xAD], values := [[]] } :=
  ParseKeyValues_tab_then_terminator [0xE4, 0xB8, 0xAD] [13, 10]
    (by decide) (by decide) (by decide)

/-! ## Loading and sorting -/

/-- Claim C9, as stated, fails: loading the stream `a\tX\nbad\n` into a new store fails
with the malformed-entry error at the second line, and the store then holds the entry of
the first line, with maximum key length 1 instead of 0. -/
theorem LoadFromFile_failure_keeps_earlier_lines :
    TextDict.LoadFromFile insertionStdSort (TextDict.new 0) [97, 9, 88, 10, 98, 97, 100, 10]
      = (.error .MalformedEntry,
         { lexicon := [⟨[97], [[88]]⟩], maxLength := 1, sorted := false }) := by
  decide

/-- Claim C9, amended. When `LoadFromFile` fails at a line, the store is the store before
the call with one `AddKeyValue` for every line read before the failing one, in the order
of the stream: its lexicon is the former lexicon followed by those entries.  It is the
store before the call when the failing line is the first one read. -/
theorem LoadFromFile_failure_state (S : StdSort) (d d' : TextDict) (fp : List Nat) (e : Error)
    (h : TextDict.LoadFromFile S d fp = (.error e, d')) :
    ∃ (good : List (List Nat)) (bad : List Nat) (rest : List (List Nat))
      (entries : List DictEntry),
      TextDict.LoadFromFile.lines (UTF8Util.SkipUtf8Bom fp).length (UTF8Util.SkipUtf8Bom fp)
        = good ++ bad :: rest ∧
      good.map ParseKeyValues = entries.map .ok ∧
      ParseKeyValues bad = .error e ∧
      d' = entries.foldl TextDict.AddKeyValue d ∧
      d'.lexicon = d.lexicon ++ entries ∧
      (good = [] → d' = d) := by
  unfold TextDict.LoadFromFile at h
  simp only [] at h
  cases hl : TextDict.LoadFromFile.loop (UTF8Util.SkipUtf8Bom fp).length
      (UTF8Util.SkipUtf8Bom fp) d with
  | mk r d'' =>
    rw [hl] at h
    cases r with
    | ok u => simp at h
    | error e' =>
      simp only [Prod.mk.injEq, Except.error.injEq] at h
      obtain ⟨he, hd⟩ := h
      subst he; subst hd
      obtain ⟨good, bad, rest, entries, h₁, h₂, h₃, h₄⟩ :=
        TextDict.LoadFromFile.loop_error _ _ _ _ _ hl
      refine ⟨good, bad, rest, entries, h₁, h₂, h₃, h₄, ?_, ?_⟩
      · rw [h₄, TextDict.foldl_AddKeyValue_lexicon]
      · intro hg
        subst hg
        cases entries with
        | nil => exact h₄
        | cons x xs => simp at h₂

/-- Loading `a\tX\nbad\n` into a new store fails at the second line and leaves the
store with the entry of the first line. -/
theorem LoadFromFile_failure_state_witness :
    ∃ (good : List (List Nat)) (bad : List Nat) (rest : List (List Nat))
      (entries : List DictEntry),
      TextDict.LoadFromFile.lines
        (UTF8Util.SkipUtf8Bom [97, 9, 88, 10, 98, 97, 100, 10]).length
        (UTF8Util.SkipUtf8Bom [97, 9, 88, 10, 98, 97, 100, 10]) = good ++ bad :: rest ∧
      good.map ParseKeyValues = entries.map .ok ∧
      ParseKeyValues bad = .error .MalformedEntry ∧
      ({ lexicon := [⟨[97], [[88]]⟩], maxLength := 1, sorted := false } : TextDict)
        = entries.foldl TextDict.AddKeyValue (TextDict.new 0) ∧
      ({ lexicon := [⟨[97], [[88]]⟩], maxLength := 1, sorted := false } : TextDict).lexicon
        = (TextDict.new 0).lexicon ++ entries ∧
      (good = [] →
        ({ lexicon := [⟨[97], [[88]]⟩], maxLength := 1, sorted := false } : TextDict)
          = TextDict.new 0) :=
  LoadFromFile_failure_state insertionStdSort (TextDict.new 0) _
    [97, 9, 88, 10, 98, 97, 100, 10] .MalformedEntry (by decide)

/-- Claim C10. Sort invariant: after any finite sequence of `AddKeyValue` calls on a newly
constructed store, the sequence returned by `GetLexicon` is non-decreasing by key under
byte-wise lexicographic comparison; it is a rearrangement of the inserted entries. -/
theorem GetLexicon_ascending (S : StdSort) (entries : List DictEntry) (maxLength₀ : Nat) :
    Ascending (TextDict.GetLexicon S
      (entries.foldl TextDict.AddKeyValue (TextDict.new maxLength₀))).1 ∧
    (TextDict.GetLexicon S
      (entries.foldl TextDict.AddKeyValue (TextDict.new maxLength₀))).1.Perm entries := by
  cases entries with
  | nil => exact ⟨List.Pairwise.nil, List.Perm.refl _⟩
  | cons e es =>
    have hs := TextDict.foldl_AddKeyValue_sorted (e :: es) (TextDict.new maxLength₀) (by simp)
    have hl := TextDict.foldl_AddKeyValue_lexicon (e :: es) (TextDict.new maxLength₀)
    simp only [TextDict.GetLexicon, TextDict.SortLexicon, hs, Bool.not_false, if_true, hl]
    exact ⟨S.ascending _, by simpa [TextDict.new] using S.perm (e :: es)⟩

/-! ## The maximum key length of a store -/

/-- Claim C11 is broken by the code: the constructor does not assign the member
`maxLength`.  When the member holds `7` after construction, `KeyMaxLength()` is `7` on the
store without entries (not `0`), and still `7` after the insertion of an entry with the
one-byte key `a`, where the maximum byte length of the inserted keys is `1`. -/
theorem KeyMaxLength_keeps_initial_value :
    (TextDict.new 7).KeyMaxLength = 7 ∧
    maxKeyLength (TextDict.new 7).lexicon = 0 ∧
    ((TextDict.new 7).AddKeyValue ⟨[97], [[88]]⟩).KeyMaxLength = 7 ∧
    maxKeyLength ((TextDict.new 7).AddKeyValue ⟨[97], [[88]]⟩).lexicon = 1 ∧
    (TextDict.GetLexicon insertionStdSort
      ((TextDict.new 7).AddKeyValue ⟨[97], [[88]]⟩)).2.KeyMaxLength = 7 := by
  decide

/-! ## The format written by the serializer -/

/-- Claim C12, as stated, fails, in two ways.  For the store with the one entry
`a<NUL>b ↦ [X]` the text written is `a<TAB>X<LF>`: the key is written up to its first NUL
byte only.  And a store can have its flag `sorted` set on a lexicon that is not in
ascending key order: let store `A` hold `b ↦ [Y]`, let a second store `B` call
`LoadFromDict(A)` (after which `A` is sorted and both hold one vector) and then
`AddKeyValue(a ↦ [X])`; the vector is now `b`, `a`, the flag of `A` is still set, and
`A.SerializeToFile` writes `b<TAB>Y<LF>a<TAB>X<LF>`, the entry `b` before the entry `a`. -/
theorem SerializeToFile_not_by_format :
    (TextDict.SerializeToFile insertionStdSort
      ((TextDict.new 0).AddKeyValue ⟨[97, 0, 98], [[88]]⟩)).1 = [97, 9, 88, 10] ∧
    (⟨[97, 0, 98], [[88]]⟩ : DictEntry).line = [97, 0, 98, 9, 88, 10] ∧
    TextDict.sharing
        (TextDict.LoadFromDict insertionStdSort (TextDict.new 0)
          ((TextDict.new 0).AddKeyValue ⟨[98], [[89]]⟩)).2
        ((TextDict.LoadFromDict insertionStdSort (TextDict.new 0)
          ((TextDict.new 0).AddKeyValue ⟨[98], [[89]]⟩)).1.AddKeyValue ⟨[97], [[88]]⟩)
      = { lexicon := [⟨[98], [[89]]⟩, ⟨[97], [[88]]⟩], maxLength := 1, sorted := true } ∧
    (TextDict.SerializeToFile insertionStdSort
      (TextDict.sharing
        (TextDict.LoadFromDict insertionStdSort (TextDict.new 0)
          ((TextDict.new 0).AddKeyValue ⟨[98], [[89]]⟩)).2
        ((TextDict.LoadFromDict insertionStdSort (TextDict.new 0)
          ((TextDict.new 0).AddKeyValue ⟨[98], [[89]]⟩)).1.AddKeyValue ⟨[97], [[88]]⟩))).1
      = [98, 9, 89, 10, 97, 9, 88, 10] ∧
    strLt [97] [98] = true := by
  decide

/-- Claim C12, amended. Serialization format: for every store whose flag `sorted` is set
only if its lexicon is in ascending key order, and whose keys and values contain no NUL
byte, the text written by `SerializeToFile` is the concatenation, over the entries of
the store taken in ascending key order, of the key, one tab, the values joined by single
spaces and one newline (`DictEntry.line`), and nothing else. -/
theorem SerializeToFile_format (S : StdSort) (d : TextDict)
    (hflag : d.sorted = true → Ascending d.lexicon)
    (hnul : ∀ e ∈ d.lexicon, (∀ b ∈ e.key, b ≠ 0) ∧ ∀ v ∈ e.values, ∀ b ∈ v, b ≠ 0) :
    ∃ ordered : List DictEntry, ordered.Perm d.lexicon ∧ Ascending ordered ∧
      (TextDict.SerializeToFile S d).1 = (ordered.map DictEntry.line).flatten := by
  have hperm := TextDict.SortLexicon_perm S d
  refine ⟨(TextDict.SortLexicon S d).lexicon, hperm,
    TextDict.SortLexicon_ascending S d hflag, ?_⟩
  exact TextDict.SerializeToFile.entries_of_no_nul _ (fun e he => hnul e (hperm.subset he))

/-- The store with the entries `b ↦ [Y, Z]` and `a ↦ [X]`, inserted in this order, is
written as `a<TAB>X<LF>b<TAB>Y Z<LF>`. -/
theorem SerializeToFile_format_witness :
    ∃ ordered : List DictEntry,
      ordered.Perm ((TextDict.new 0).AddKeyValue ⟨[98], [[89], [90]]⟩
        |>.AddKeyValue ⟨[97], [[88]]⟩).lexicon ∧
      Ascending ordered ∧
      (TextDict.SerializeToFile insertionStdSort
        ((TextDict.new 0).AddKeyValue ⟨[98], [[89], [90]]⟩
          |>.AddKeyValue ⟨[97], [[88]]⟩)).1 = (ordered.map DictEntry.line).flatten :=
  SerializeToFile_format insertionStdSort
    ((TextDict.new 0).AddKeyValue ⟨[98], [[89], [90]]⟩ |>.AddKeyValue ⟨[97], [[88]]⟩)
    (by decide) (by decide)

/-- Claim C13, as stated, fails: the entries `a ↦ [X]` and `a ↦ [Y]`, inserted in the two
possible orders into new stores, are written in the order of their insertion by a sort
that keeps the order of equal keys, so the two texts differ. -/
theorem SerializeToFile_depends_on_order_of_equal_keys :
    (TextDict.SerializeToFile insertionStdSort
      ((TextDict.new 0).AddKeyValue ⟨[97], [[88]]⟩ |>.AddKeyValue ⟨[97], [[89]]⟩)).1
      = [97, 9, 88, 10, 97, 9, 89, 10] ∧
    (TextDict.SerializeToFile insertionStdSort
      ((TextDict.new 0).AddKeyValue ⟨[97], [[89]]⟩ |>.AddKeyValue ⟨[97], [[88]]⟩)).1
      = [97, 9, 89, 10, 97, 9, 88, 10] := by
  decide

/-- Claim C13, amended. Serialization is independent of the insertion order: when two
sequences of `AddKeyValue` calls insert the same entries in different orders into new
stores, and entries with the same key are the same entry, `SerializeToFile` writes the
same text for both stores. -/
theorem SerializeToFile_order_independent (S : StdSort) (m₁ m₂ : Nat)
    (entries₁ entries₂ : List DictEntry) (hperm : entries₁.Perm entries₂)
    (hkey : ∀ a ∈ entries₁, ∀ b ∈ entries₁, a.key = b.key → a = b) :
    (TextDict.SerializeToFile S (entries₁.foldl TextDict.AddKeyValue (TextDict.new m₁))).1
      = (TextDict.SerializeToFile S
          (entries₂.foldl TextDict.AddKeyValue (TextDict.new m₂))).1 := by
  have h₁ := TextDict.SortLexicon_foldl_spec S entries₁ m₁
  have h₂ := TextDict.SortLexicon_foldl_spec S entries₂ m₂
  have heq : (TextDict.SortLexicon S (entries₁.foldl TextDict.AddKeyValue (TextDict.new m₁))).lexicon
      = (TextDict.SortLexicon S
          (entries₂.foldl TextDict.AddKeyValue (TextDict.new m₂))).lexicon := by
    refine TextDict.ascending_perm_unique h₁.1 h₂.1 ((h₁.2.trans hperm).trans h₂.2.symm) ?_
    intro a ha b hb
    exact hkey a (h₁.2.subset ha) b (h₁.2.subset hb)
  simp only [TextDict.SerializeToFile, heq]

/-- The entries `b ↦ [Y]` and `a ↦ [X]` give the same text in both insertion orders. -/
theorem SerializeToFile_order_independent_witness :
    (TextDict.SerializeToFile insertionStdSort
      ([⟨[98], [[89]]⟩, ⟨[97], [[88]]⟩].foldl TextDict.AddKeyValue (TextDict.new 0))).1
      = (TextDict.SerializeToFile insertionStdSort
          ([⟨[97], [[88]]⟩, ⟨[98], [[89]]⟩].foldl TextDict.AddKeyValue (TextDict.new 0))).1 :=
  SerializeToFile_order_independent insertionStdSort 0 0
    [⟨[98], [[89]]⟩, ⟨[97], [[88]]⟩] [⟨[97], [[88]]⟩, ⟨[98], [[89]]⟩]
    (by decide) (by decide)

/-! ## Lines longer than the line buffer -/

set_option maxRecDepth 100000 in
/-- Claim C14 is broken by the code: `fgets` reads at most `ENTRY_BUFF_SIZE - 1 = 127`
bytes at a time.  The well-formed line `k<TAB>` followed by a value of 130 bytes `x` and a
newline is read in two pieces: the first gives the entry `k` with a value of 125 bytes,
the second has no tab and makes the load fail.  The well-formed line `k<TAB>`, 125 bytes
`x`, `a<TAB>b`, newline (one value, which contains a tab) gives two entries, `k` and `a`. -/
theorem LoadFromFile_splits_long_line :
    TextDict.LoadFromFile insertionStdSort (TextDict.new 0)
        ([107, 9] ++ List.replicate 130 120 ++ [10])
      = (.error .MalformedEntry,
         { lexicon := [⟨[107], [List.replicate 125 120]⟩], maxLength := 1, sorted := false }) ∧
    TextDict.LoadFromFile insertionStdSort (TextDict.new 0)
        ([107, 9] ++ List.replicate 125 120 ++ [97, 9, 98, 10])
      = (.ok (),
         { lexicon := [⟨[97], [[98]]⟩, ⟨[107], [List.replicate 125 120]⟩],
           maxLength := 1, sorted := true }) ∧
    ParseKeyValues ([107, 9] ++ List.replicate 125 120 ++ [97, 9, 98, 10])
      = .ok ⟨[107], [List.replicate 125 120 ++ [97, 9, 98]]⟩ := by
  decide

/-! ## Queries on a store without entries -/

/-- Claim C15 is broken by the code: the constructor does not assign the member
`maxLength`, so on a newly constructed store the candidate is not empty and the search
loops run; their step is `PrevCharLength(keyPtr)` with `keyPtr` at the START of the
candidate.  When the member holds `4` after construction and no leading byte lies before
the candidate buffer, both queries raise the encoding error on the store without
entries for the valid text `a`.  With the member at `4` the text `80` (no leading byte)
makes both queries raise the encoding error in the truncation, whatever lies before the
buffer. -/
theorem match_on_new_store_raises :
    (TextDict.new 4).lexicon = [] ∧
    UTF8Util.ValidUTF8 [97] ∧
    (TextDict.MatchPrefix insertionStdSort [0xBF, 0xBF, 0xBF, 0xBF] (TextDict.new 4) [97]).1
      = .error .EncodingError ∧
    (TextDict.MatchAllPrefixes insertionStdSort [0xBF, 0xBF, 0xBF, 0xBF] (TextDict.new 4)
      [97]).1 = .error .EncodingError ∧
    (TextDict.MatchPrefix insertionStdSort [0] (TextDict.new 4) [0x80]).1
      = .error .EncodingError ∧
    (TextDict.MatchAllPrefixes insertionStdSort [0] (TextDict.new 4) [0x80]).1
      = .error .EncodingError := by
  decide

/-- On a store without entries whose maximum key length is `0`, for every valid UTF-8
text and whatever bytes lie before the candidate buffer, `MatchPrefix` returns no match
and `MatchAllPrefixes` returns the empty sequence, and neither raises an error: the
candidate is empty and the loops do not run. -/
theorem match_on_empty_store (S : StdSort) (pre : List Nat) (word : List Nat)
    (hword : UTF8Util.ValidUTF8 word) :
    (TextDict.MatchPrefix S pre (TextDict.new 0) word).1 = .ok none ∧
    (TextDict.MatchAllPrefixes S pre (TextDict.new 0) word).1 = .ok [] := by
  have hT : UTF8Util.Truncate word (TextDict.SortLexicon S (TextDict.new 0)).maxLength
      = .ok [] := by
    rw [TextDict.SortLexicon_maxLength]
    exact TextDict.Truncate_zero word hword
  constructor
  · simp only [TextDict.MatchPrefix, hT]
    rfl
  · simp only [TextDict.MatchAllPrefixes, hT]
    rfl

/-- On a store without entries, whatever value the member `maxLength` has, a query that
returns has no match to return: `MatchPrefix` returns no match and `MatchAllPrefixes`
the empty sequence. -/
theorem match_on_new_store_result (S : StdSort) (pre : List Nat) (maxLength₀ : Nat)
    (word : List Nat) :
    (∀ r, (TextDict.MatchPrefix S pre (TextDict.new maxLength₀) word).1 = .ok r → r = none) ∧
    (∀ r, (TextDict.MatchAllPrefixes S pre (TextDict.new maxLength₀) word).1 = .ok r →
      r = []) := by
  have hall : ∀ r, (TextDict.MatchAllPrefixes S pre (TextDict.new maxLength₀) word).1 = .ok r →
      r = [] := by
    intro r h
    rw [TextDict.MatchAllPrefixes_eq_candidates] at h
    cases hc : TextDict.candidates pre (TextDict.new maxLength₀) word with
    | error e => rw [hc] at h; cases h
    | ok cs =>
      rw [hc] at h
      simp only [Except.map, Except.ok.injEq] at h
      rw [← h]
      apply List.filterMap_eq_nil_iff.mpr
      intro c _
      rfl
  refine ⟨?_, hall⟩
  intro r h
  cases r with
  | none => rfl
  | some e =>
    have := TextDict.MatchPrefix_sound S pre (TextDict.new maxLength₀) word e h
    exact absurd this.1 (List.not_mem_nil e)

/-! ## The candidates of the search loops are not cut by characters -/

/-- Claim C16 is broken by the code: the step of the loops is `PrevCharLength(keyPtr)` with
`keyPtr` at the START of the candidate, the same value in every round.  On a store with
maximum key length 4 and the text `E4 B8 AD 61` (a three-byte character, then `a`), the
candidates by characters would be the whole text and `E4 B8 AD`.  Whatever bytes lie
before the candidate buffer, the loop does not look up these two candidates: with a
one-byte character before the buffer it goes down byte by byte (4, 3, 2, 1 bytes), with
a three-byte character before the buffer it looks up 4 bytes and then 1 byte. -/
theorem candidates_not_by_characters :
    (∀ pre : List Nat,
      TextDict.candidates pre ((TextDict.new 0).AddKeyValue ⟨[120, 120, 120, 120], [[88]]⟩)
        [0xE4, 0xB8, 0xAD, 97] ≠ .ok [[0xE4, 0xB8, 0xAD, 97], [0xE4, 0xB8, 0xAD]]) ∧
    TextDict.candidates [0] ((TextDict.new 0).AddKeyValue ⟨[120, 120, 120, 120], [[88]]⟩)
        [0xE4, 0xB8, 0xAD, 97]
      = .ok [[0xE4, 0xB8, 0xAD, 97], [0xE4, 0xB8, 0xAD], [0xE4, 0xB8], [0xE4]] ∧
    TextDict.candidates [0xAD, 0xB8, 0xE4]
        ((TextDict.new 0).AddKeyValue ⟨[120, 120, 120, 120], [[88]]⟩)
        [0xE4, 0xB8, 0xAD, 97]
      = .ok [[0xE4, 0xB8, 0xAD, 97], [0xE4]] := by
  refine ⟨?_, by decide, by decide⟩
  intro pre
  cases hp : UTF8Util.PrevCharLength pre with
  | error e =>
    rw [TextDict.candidates_of_error hp _ _ [0xE4, 0xB8, 0xAD, 97] (by decide) (by decide)]
    intro h
    cases h
  | ok n =>
    rw [TextDict.candidates_of_step hp]
    rcases TextDict.PrevCharLength_range hp with h | h | h | h <;> subst h <;> decide

/-- Claim C17 is broken by the code: on a store with maximum key length 8 and the text
`E4 B8 AD E4 B8 AD C3 A9` (two three-byte characters and a two-byte character), whatever
bytes lie before the candidate buffer, the search loop either raises the encoding error
or looks up a candidate that ends inside a multi-byte character. -/
theorem candidates_cut_characters (pre : List Nat) :
    TextDict.candidates pre
        ((TextDict.new 0).AddKeyValue ⟨[120, 120, 120, 120, 120, 120, 120, 120], [[88]]⟩)
        [0xE4, 0xB8, 0xAD, 0xE4, 0xB8, 0xAD, 0xC3, 0xA9] = .error .EncodingError ∨
    ∃ cs, TextDict.candidates pre
        ((TextDict.new 0).AddKeyValue ⟨[120, 120, 120, 120, 120, 120, 120, 120], [[88]]⟩)
        [0xE4, 0xB8, 0xAD, 0xE4, 0xB8, 0xAD, 0xC3, 0xA9] = .ok cs ∧
      ∃ c ∈ cs, ¬ UTF8Util.ValidUTF8 c := by
  cases hp : UTF8Util.PrevCharLength pre with
  | error e =>
    left
    rw [TextDict.candidates_of_error hp _ _ [0xE4, 0xB8, 0xAD, 0xE4, 0xB8, 0xAD, 0xC3, 0xA9]
      (by decide) (by decide), TextDict.PrevCharLength_error hp]
  | ok n =>
    right
    rw [TextDict.candidates_of_step hp]
    rcases TextDict.PrevCharLength_range hp with h | h | h | h <;> subst h
    · exact ⟨_, rfl, by decide⟩
    · exact ⟨_, rfl, by decide⟩
    · exact ⟨_, rfl, by decide⟩
    · exact ⟨_, rfl, by decide⟩

/-! ## The entry returned by the parser -/

/-- Claim C18, as stated, fails: the line `<TAB>X<LF>` is accepted and gives an entry with
the empty key. -/
theorem ParseKeyValues_accepts_empty_key :
    ParseKeyValues [9, 88, 10] = .ok { key := [], values := [[88]] } := by
  decide

/-- Claim C18, amended. For every line on which `ParseKeyValues` succeeds, the returned
entry has a non-empty list of values; its key is empty exactly when the line begins
with a tab. -/
theorem ParseKeyValues_output (buff : List Nat) (entry : DictEntry)
    (h : ParseKeyValues buff = .ok entry) :
    entry.values ≠ [] ∧ (entry.key = [] ↔ buff.head? = some 9) := by
  unfold ParseKeyValues at h
  cases hf : UTF8Util.FindNextInline buff 9 with
  | error e => rw [hf] at h; cases h
  | ok length =>
    rw [hf] at h
    simp only [] at h
    by_cases hend : UTF8Util.IsLineEndingOrFileEnding ((buff.drop length).headD 0) = true
    · rw [if_pos hend] at h; cases h
    · rw [if_neg hend] at h
      have hstart : UTF8Util.IsLineEndingOrFileEnding ((buff.drop length).headD 0) = false := by
        simpa using hend
      cases hl : ParseKeyValues.loop ((buff.drop length).length + 1) (buff.drop length) [] with
      | error e => rw [hl] at h; cases h
      | ok values =>
        rw [hl] at h
        simp only [Except.ok.injEq] at h
        subst h
        refine ⟨ParseKeyValues.loop_nonempty _ _ _ hstart hl, ?_⟩
        simp only [UTF8Util.FromSubstr]
        cases buff with
        | nil =>
          exfalso
          simp [UTF8Util.IsLineEndingOrFileEnding] at hstart
        | cons b rest =>
          simp only [List.head?_cons, Option.some.injEq]
          constructor
          · intro hkey
            have hzero : length = 0 := by
              cases length with
              | zero => rfl
              | succ k => simp at hkey
            subst hzero
            rcases (FindNextInline_zero_iff b rest 9).mp hf with hb | hb
            · simp only [List.drop_zero, List.headD_cons] at hstart
              rw [hb] at hstart
              cases hstart
            · exact hb
          · intro hb
            have hzero := (FindNextInline_zero_iff b rest 9).mpr (Or.inr hb)
            rw [hzero] at hf
            simp only [Except.ok.injEq] at hf
            subst hf
            rfl

/-- The line `E4 B8 AD 09 58 20 59 0A` gives an entry with two values and a non-empty
key; it does not begin with a tab. -/
theorem ParseKeyValues_output_witness :
    ({ key := [0xE4, 0xB8, 0xAD], values := [[88], [89]] } : DictEntry).values ≠ [] ∧
    (({ key := [0xE4, 0xB8, 0xAD], values := [[88], [89]] } : DictEntry).key = [] ↔
      [0xE4, 0xB8, 0xAD, 9, 88, 32, 89, 10].head? = some 9) :=
  ParseKeyValues_output [0xE4, 0xB8, 0xAD, 9, 88, 32, 89, 10]
    { key := [0xE4, 0xB8, 0xAD], values := [[88], [89]] } (by decide)

/-! ## The two queries side by side -/

/-- Claim C19 is broken by the code: `MatchAllPrefixes` evaluates the step
`PrevCharLength(keyPtr)` after every round, also after a hit, and `keyPtr` is the start
of the candidate.  With the entries `a ↦ [X]`, `ab ↦ [Y]`, the text `abc` and no leading
byte among the bytes before the candidate buffer, `MatchPrefix` returns the entry for
`ab` while `MatchAllPrefixes` raises the encoding error and returns no sequence. -/
theorem MatchPrefix_returns_where_MatchAllPrefixes_raises :
    (TextDict.MatchPrefix insertionStdSort [0xBF, 0xBF, 0xBF, 0xBF]
      ((TextDict.new 0).AddKeyValue ⟨[97], [[88]]⟩ |>.AddKeyValue ⟨[97, 98], [[89]]⟩)
      [97, 98, 99]).1 = .ok (some ⟨[97, 98], [[89]]⟩) ∧
    (TextDict.MatchAllPrefixes insertionStdSort [0xBF, 0xBF, 0xBF, 0xBF]
      ((TextDict.new 0).AddKeyValue ⟨[97], [[88]]⟩ |>.AddKeyValue ⟨[97, 98], [[89]]⟩)
      [97, 98, 99]).1 = .error .EncodingError := by
  decide

/-! ## Looking up an inserted key -/

/-- Claim C20. Insert then look up: for every state `d` of the store (reachable or not,
sorted or not), whatever bytes lie before the candidate buffer, and every entry `e` whose
key is non-empty valid UTF-8 without a NUL byte, after `AddKeyValue(e)` the query
`MatchPrefix(e.key.c_str())` returns an entry whose key equals `e.key`. -/
theorem MatchPrefix_finds_inserted_key (S : StdSort) (pre : List Nat) (d : TextDict)
    (e : DictEntry) (hvalid : UTF8Util.ValidUTF8 e.key) (hne : e.key ≠ [])
    (hnul : ∀ b ∈ e.key, b ≠ 0) :
    ∃ found, (TextDict.MatchPrefix S pre (d.AddKeyValue e) (TextDict.c_str e.key)).1
        = .ok (some found) ∧ found.key = e.key := by
  rw [TextDict.c_str_of_no_nul e.key hnul]
  have hsorted : (d.AddKeyValue e).sorted = true → Ascending (d.AddKeyValue e).lexicon := by
    intro h; cases h
  have hasc := TextDict.SortLexicon_ascending S (d.AddKeyValue e) hsorted
  have hmem : e ∈ (TextDict.SortLexicon S (d.AddKeyValue e)).lexicon := by
    apply (TextDict.SortLexicon_perm S (d.AddKeyValue e)).mem_iff.mpr
    simp [TextDict.AddKeyValue]
  obtain ⟨found, hf, hkey, _⟩ := TextDict.lookup_of_mem hasc hmem
  have hT : UTF8Util.Truncate e.key (TextDict.SortLexicon S (d.AddKeyValue e)).maxLength
      = .ok e.key := by
    apply TextDict.Truncate_whole e.key _ hvalid
    rw [TextDict.SortLexicon_maxLength]
    simp only [TextDict.AddKeyValue]
    omega
  refine ⟨found, ?_, hkey⟩
  have hpos : e.key.length > 0 := List.length_pos.mpr hne
  simp only [TextDict.MatchPrefix, hT]
  cases hlen : e.key.length with
  | zero => omega
  | succ k =>
    simp only [TextDict.MatchPrefix.loop, Nat.succ_pos, gt_iff_lt, if_true]
    rw [← hlen, TextDict.resize_of_le (Nat.le_refl _), List.take_length, hf]

/-- After the insertion of `中 ↦ [X]` into a store that holds `a` and `ab`, the query for
`中` returns an entry with that key, also with bytes before the candidate buffer that
hold no leading byte. -/
theorem MatchPrefix_finds_inserted_key_witness :
    ∃ found, (TextDict.MatchPrefix insertionStdSort [0xBF, 0xBF, 0xBF, 0xBF]
        (((TextDict.new 0).AddKeyValue ⟨[97], [[88]]⟩ |>.AddKeyValue ⟨[97, 98], [[89]]⟩)
          |>.AddKeyValue ⟨[0xE4, 0xB8, 0xAD], [[88]]⟩)
        (TextDict.c_str [0xE4, 0xB8, 0xAD])).1 = .ok (some found) ∧
      found.key = [0xE4, 0xB8, 0xAD] :=
  MatchPrefix_finds_inserted_key insertionStdSort [0xBF, 0xBF, 0xBF, 0xBF]
    ((TextDict.new 0).AddKeyValue ⟨[97], [[88]]⟩ |>.AddKeyValue ⟨[97, 98], [[89]]⟩)
    ⟨[0xE4, 0xB8, 0xAD], [[88]]⟩ (by decide) (by decide) (by decide)

end Opencc
